import Mathlib

/-!
Shallow embedding of the iconimation animation compiler and proofs about it.

Embedded sources: `src/iconimation/src/spring.rs`, `spring2cubic.rs`, `ir.rs`,
`lottie.rs`, `lib.rs`.  All `f64` arithmetic is modelled over `ℝ`; Rust `Vec`s
become `List`s; fallible code returns `Except`; code that can `panic!`, hit an
`assert!`, an `unwrap()` on an error, or a `todo!()` returns in the `PRes`
monad whose third outcome `aborts` stands for abnormal termination.
-/

namespace Iconimation

/-- A 2-D point, kurbo `Point` (and `Vec2`). -/
abbrev Pt : Type := ℝ × ℝ

/-- Outcome of code that may return a value, return a typed error, or abort
(panic / failed assert / `todo!()` / `unwrap` on `Err`). -/
inductive PRes (ε : Type) (α : Type) where
  | ok (a : α)
  | err (e : ε)
  | aborts
deriving Repr

instance {ε : Type} : Monad (PRes ε) where
  pure := .ok
  bind := fun x f =>
    match x with
    | .ok a => f a
    | .err e => .err e
    | .aborts => .aborts

/-! ## spring.rs -/

/-- `AnimatedValueType` (spring.rs): the kind of value being animated, which
fixes the equilibrium thresholds. -/
inductive AnimatedValueType where
  | rotation
  | scale
  | position
  | custom (value_threshold : ℝ)

/-- `AnimatedValue` (spring.rs): the state of something being animated. -/
structure AnimatedValue where
  value : ℝ
  value_type : AnimatedValueType
  velocity : ℝ
  final_value : ℝ
  time : ℝ

/-- `AnimatedValue::new` (spring.rs). -/
def AnimatedValue.new (from_v to_v : ℝ) (value_type : AnimatedValueType) : AnimatedValue :=
  { value := from_v
    velocity := 0
    final_value := to_v
    time := 0
    value_type := value_type }

/-- `Spring` (spring.rs): the three damping regimes with their precomputed
constants. -/
inductive Spring where
  | overdamped (gamma_plus gamma_minus : ℝ)
  | criticallyDamped (natural_freq : ℝ)
  | underdamped (damping natural_freq damped_freq : ℝ)

/-- `Spring::new_internal` (spring.rs, lines 34-52). -/
noncomputable def Spring.new_internal (damping stiffness : ℝ) : Spring :=
  let natural_freq := Real.sqrt stiffness
  if damping > 1 then
    .overdamped
      (-damping * natural_freq + natural_freq * Real.sqrt (damping * damping - 1))
      (-damping * natural_freq - natural_freq * Real.sqrt (damping * damping - 1))
  else if damping < 1 then
    .underdamped damping natural_freq (natural_freq * Real.sqrt (1 - damping * damping))
  else
    .criticallyDamped natural_freq

/-- `Spring::standard` (spring.rs). -/
noncomputable def Spring.standard : Spring := Spring.new_internal 1.0 380.0

/-- `Spring::smooth_spatial` (spring.rs). -/
noncomputable def Spring.smooth_spatial : Spring := Spring.new_internal 1.0 190.0

/-- `Spring::smooth_non_spatial` (spring.rs). -/
noncomputable def Spring.smooth_non_spatial : Spring := Spring.new_internal 1.0 380.0

/-- `Spring::expressive_spatial` (spring.rs). -/
noncomputable def Spring.expressive_spatial : Spring := Spring.new_internal 0.8 380.0

/-- `Spring::expressive_non_spatial` (spring.rs). -/
noncomputable def Spring.expressive_non_spatial : Spring := Spring.new_internal 1.0 380.0

/-- `Spring::update` (spring.rs, lines 104-120 of the claim's numbering):
compute value and velocity at a new time.  The underdamped value is a literal
translation of the source, including its `(damped_freq * delta_t.sin())`
factor, i.e. `ω_d · sin(Δt)`; the velocity line of the same source uses
`(damped_freq * delta_t).sin()`, i.e. `sin(ω_d · Δt)`. -/
noncomputable def Spring.update (s : Spring) (time : ℝ) (last : AnimatedValue) : AnimatedValue :=
  let delta_t := time - last.time
  let last_displacement := last.value - last.final_value
  let vv : ℝ × ℝ :=
    match s with
    | .overdamped gamma_plus gamma_minus =>
        let coeff_a := last_displacement -
          (gamma_minus * last_displacement - last.velocity) / (gamma_minus - gamma_plus)
        let coeff_b :=
          (gamma_minus * last_displacement - last.velocity) / (gamma_minus - gamma_plus)
        (coeff_a * Real.exp (gamma_minus * delta_t) + coeff_b * Real.exp (gamma_plus * delta_t),
         coeff_a * gamma_minus * Real.exp (gamma_minus * delta_t) +
           coeff_b * gamma_plus * Real.exp (gamma_plus * delta_t))
    | .criticallyDamped natural_freq =>
        let coeff_a := last_displacement
        let coeff_b := last.velocity + natural_freq * last_displacement
        ((coeff_a + coeff_b * delta_t) * Real.exp (-natural_freq * delta_t),
         (coeff_a + coeff_b * delta_t) * Real.exp (-natural_freq * delta_t) * -natural_freq +
           coeff_b * Real.exp (-natural_freq * delta_t))
    | .underdamped damping natural_freq damped_freq =>
        let cos_coeff := last_displacement
        let sin_coeff := (1 / damped_freq) *
          (damping * natural_freq * last_displacement + last.velocity)
        let value := Real.exp (-damping * natural_freq * delta_t) *
          (cos_coeff * Real.cos (damped_freq * delta_t) +
            sin_coeff * (damped_freq * Real.sin delta_t))
        (value,
         value * -natural_freq * damping + Real.exp (-damping * natural_freq * delta_t) *
           (-damped_freq * cos_coeff * Real.sin (damped_freq * delta_t) +
             damped_freq * sin_coeff * Real.cos (damped_freq * delta_t)))
  { value := vv.1 + last.final_value
    velocity := vv.2
    final_value := last.final_value
    time := time
    value_type := last.value_type }

/-- `ValueThresholds` (spring.rs). -/
structure ValueThresholds where
  value_threshold : ℝ
  velocity_threshold : ℝ

/-- `AnimatedValueType::VELOCITY_THRESHOLD_MULTIPLIER` (spring.rs). -/
noncomputable def VELOCITY_THRESHOLD_MULTIPLIER : ℝ := 1000.0 / 16.0

/-- `AnimatedValueType::thresholds` (spring.rs, lines 194-216). -/
noncomputable def AnimatedValueType.thresholds (t : AnimatedValueType) : ValueThresholds :=
  let value_threshold :=
    (match t with
      | .position => 0.01
      | .rotation => 0.1
      | .scale => 1.0 / 500.0
      | .custom value_threshold => value_threshold) * 0.75
  { value_threshold := value_threshold
    velocity_threshold := value_threshold * VELOCITY_THRESHOLD_MULTIPLIER }

/-- `AnimatedValue::is_at_equilibrium` (spring.rs, lines 172-177). -/
def AnimatedValue.is_at_equilibrium (a : AnimatedValue) : Prop :=
  |a.velocity| < a.value_type.thresholds.velocity_threshold ∧
    |a.value - a.final_value| < a.value_type.thresholds.value_threshold

/-- The value prescribed for the underdamped regime by the spec's update
table: `e^(−ζω₀Δt)·(C·cos(ω_d Δt) + S·sin(ω_d Δt)) + final` with `C = x`,
`S = (ζ·ω₀·x + v)/ω_d`, stated here for comparison with `Spring.update`. -/
noncomputable def spec_underdamped_value
    (damping natural_freq damped_freq : ℝ) (time : ℝ) (last : AnimatedValue) : ℝ :=
  let delta_t := time - last.time
  let x := last.value - last.final_value
  let c := x
  let s := (damping * natural_freq * x + last.velocity) / damped_freq
  Real.exp (-(damping * natural_freq * delta_t)) *
      (c * Real.cos (damped_freq * delta_t) + s * Real.sin (damped_freq * delta_t)) +
    last.final_value

/-- The concrete underdamped spring used to exhibit the sin-factor slip:
`Spring::new_internal(4/5, 25/36)`, whose constants are ζ = 4/5, ω₀ = 5/6,
ω_d = 1/2. -/
noncomputable def bugSpring : Spring := Spring.new_internal (4 / 5) (25 / 36)

/-- The concrete animation state used to exhibit the sin-factor slip:
value 1, final value 0, velocity 0, time 0. -/
def bugState : AnimatedValue :=
  { value := 1, value_type := .position, velocity := 0, final_value := 0, time := 0 }

theorem bugSpring_eq : bugSpring = .underdamped (4 / 5) (5 / 6) (1 / 2) := by
  unfold bugSpring Spring.new_internal
  have h36 : Real.sqrt (25 / 36) = 5 / 6 := by
    rw [show (25 / 36 : ℝ) = (5 / 6) ^ 2 by norm_num, Real.sqrt_sq (by norm_num)]
  have h925 : Real.sqrt (1 - (4 / 5 : ℝ) * (4 / 5)) = 3 / 5 := by
    rw [show (1 - (4 / 5 : ℝ) * (4 / 5)) = (3 / 5) ^ 2 by norm_num,
      Real.sqrt_sq (by norm_num)]
  rw [if_neg (by norm_num), if_pos (by norm_num)]
  rw [h36, h925]
  norm_num

/-- C1: divergence of `Spring::update` from the spec's underdamped formula.
At the underdamped spring ζ = 4/5, ω₀ = 5/6, ω_d = 1/2 (from stiffness 25/36)
and the state (value 1, final 0, velocity 0, time 0) evaluated at time π, the
source computes value 0 — its sin factor is `ω_d·sin(Δt)` and `sin(π) = 0` —
while the spec's formula `e^(−ζω₀Δt)·(C·cos(ω_d Δt) + S·sin(ω_d Δt)) + final`
gives `(4/3)·e^(−2π/3) ≠ 0`. -/
theorem spring_update_underdamped_sin_slip :
    (bugSpring.update Real.pi bugState).value = 0 ∧
      spec_underdamped_value (4 / 5) (5 / 6) (1 / 2) Real.pi bugState =
        4 / 3 * Real.exp (-(2 * Real.pi / 3)) ∧
      (bugSpring.update Real.pi bugState).value ≠
        spec_underdamped_value (4 / 5) (5 / 6) (1 / 2) Real.pi bugState := by
  have hpi2 : (1 / 2 : ℝ) * Real.pi = Real.pi / 2 := by ring
  have hcode : (bugSpring.update Real.pi bugState).value = 0 := by
    rw [bugSpring_eq]
    show Real.exp (-(4 / 5) * (5 / 6) * (Real.pi - (0 : ℝ))) *
        (((1 : ℝ) - 0) * Real.cos ((1 / 2) * (Real.pi - 0)) +
          (1 / (1 / 2)) * ((4 / 5) * (5 / 6) * ((1 : ℝ) - 0) + 0) *
            ((1 / 2) * Real.sin (Real.pi - 0))) + 0 = 0
    rw [show Real.pi - (0 : ℝ) = Real.pi by ring, hpi2, Real.cos_pi_div_two, Real.sin_pi]
    ring
  have hspec : spec_underdamped_value (4 / 5) (5 / 6) (1 / 2) Real.pi bugState =
      4 / 3 * Real.exp (-(2 * Real.pi / 3)) := by
    show Real.exp (-((4 / 5) * (5 / 6) * (Real.pi - (0 : ℝ)))) *
        (((1 : ℝ) - 0) * Real.cos ((1 / 2) * (Real.pi - 0)) +
          (((4 / 5) * (5 / 6) * ((1 : ℝ) - 0) + 0) / (1 / 2)) *
            Real.sin ((1 / 2) * (Real.pi - 0))) + 0 =
      4 / 3 * Real.exp (-(2 * Real.pi / 3))
    rw [show Real.pi - (0 : ℝ) = Real.pi by ring, hpi2, Real.cos_pi_div_two,
      Real.sin_pi_div_two]
    rw [show -((4 / 5 : ℝ) * (5 / 6) * Real.pi) = -(2 * Real.pi / 3) by ring]
    ring
  refine ⟨hcode, hspec, ?_⟩
  rw [hcode, hspec]
  intro h
  have := Real.exp_pos (-(2 * Real.pi / 3))
  nlinarith

/-- C9: `is_at_equilibrium` holds exactly when `|velocity|` is below the
velocity threshold and `|value − final_value|` below the value threshold,
where the value threshold is the per-kind base (Position 0.01, Rotation 0.1,
Scale 1/500, Custom v) times 0.75 and the velocity threshold is the value
threshold times 1000/16. -/
theorem is_at_equilibrium_thresholds (a : AnimatedValue) :
    a.is_at_equilibrium ↔
      |a.velocity| <
          ((match a.value_type with
            | .position => 0.01
            | .rotation => 0.1
            | .scale => 1 / 500
            | .custom v => v) * 0.75) * (1000 / 16) ∧
        |a.value - a.final_value| <
          (match a.value_type with
            | .position => 0.01
            | .rotation => 0.1
            | .scale => 1 / 500
            | .custom v => v) * 0.75 := by
  cases h : a.value_type <;>
    simp [AnimatedValue.is_at_equilibrium, AnimatedValueType.thresholds,
      VELOCITY_THRESHOLD_MULTIPLIER, h] <;> norm_num

/-! ## ir.rs : Keyframe and Keyframed -/

/-- `Keyframe<T>` (ir.rs). -/
structure Keyframe (T : Type) where
  frame : ℝ
  value : T

/-- `Keyframed<T>` (ir.rs): a keyframe series plus an optional spring preset. -/
structure Keyframed (T : Type) where
  keyframes : List (Keyframe T)
  spring : Option Spring

/-- `Keyframed::new` (ir.rs). -/
def Keyframed.new {T : Type} (frame : ℝ) (value : T) (spring : Option Spring) : Keyframed T :=
  { keyframes := [⟨frame, value⟩], spring := spring }

/-- `Keyframed::len` (ir.rs). -/
def Keyframed.len {T : Type} (k : Keyframed T) : ℕ := k.keyframes.length

/-- `Keyframed::is_animated` (ir.rs). -/
def Keyframed.is_animated {T : Type} (k : Keyframed T) : Prop := 1 < k.len

/-- `Keyframed::earliest` (ir.rs): `&self.keyframes[0]`.  The source indexes
directly, relying on the nonemptiness invariant; on an (invariant-violating)
empty series this model returns a default keyframe. -/
def Keyframed.earliest {T : Type} [Inhabited T] (k : Keyframed T) : Keyframe T :=
  k.keyframes.headD ⟨0, default⟩

/-- `Keyframed::push` (ir.rs, lines 359-369): replace the keyframe holding an
equal frame when one exists, else append at the end of the vector. -/
noncomputable def Keyframed.push {T : Type} (k : Keyframed T) (keyframe : Keyframe T) :
    Keyframed T :=
  match k.keyframes.findIdx? (fun kf => decide (kf.frame = keyframe.frame)) with
  | some pos => ⟨k.keyframes.set pos keyframe, k.spring⟩
  | none => ⟨k.keyframes ++ [keyframe], k.spring⟩

/-- `AnimationError` (error.rs).  The payloads of `NoHeadTable` and
`DrawError` (skrifa error values) are not modelled. -/
inductive AnimationError where
  | noHeadTable
  | drawError
  | noKeyframes
  | multipleValuesForFrame (frame : ℝ)

/-- The adjacent-duplicate scan of `TryFrom<Vec<(f64, T)>> for Keyframed<T>`
(ir.rs, lines 474-478): the first frame that appears in two adjacent pairs. -/
noncomputable def firstAdjacentDupFrame {T : Type} : List (ℝ × T) → Option ℝ
  | a :: b :: rest => if a.1 = b.1 then some a.1 else firstAdjacentDupFrame (b :: rest)
  | _ => none

noncomputable instance decFrameLe {T : Type} :
    DecidableRel (fun a b : ℝ × T => a.1 ≤ b.1) :=
  fun a b => inferInstanceAs (Decidable (a.1 ≤ b.1))

/-- `TryFrom<Vec<(f64, T)>> for Keyframed<T>` (ir.rs, lines 465-487).
`sort_by_key(OrderedFloat(frame))` is Rust's stable sort by the frame key;
it is modelled by insertion sort on the frame key, which also sorts stably. -/
noncomputable def Keyframed.tryFrom {T : Type} (value : List (ℝ × T)) :
    Except AnimationError (Keyframed T) :=
  if value.isEmpty then .error .noKeyframes
  else
    match firstAdjacentDupFrame (List.insertionSort (fun a b : ℝ × T => a.1 ≤ b.1) value) with
    | some f => .error (.multipleValuesForFrame f)
    | none =>
        .ok ⟨(List.insertionSort (fun a b : ℝ × T => a.1 ≤ b.1) value).map
          (fun fv => ⟨fv.1, fv.2⟩), none⟩

theorem firstAdjacentDupFrame_eq_none_iff {T : Type} (l : List (ℝ × T)) :
    firstAdjacentDupFrame l = none ↔ (l.map Prod.fst).Chain' (· ≠ ·) := by
  induction l with
  | nil => simp [firstAdjacentDupFrame]
  | cons a rest ih =>
    cases rest with
    | nil => simp [firstAdjacentDupFrame]
    | cons b t =>
      rw [firstAdjacentDupFrame]
      by_cases h : a.1 = b.1
      · simp [h, List.chain'_cons]
      · simp only [if_neg h, ih, List.map_cons, List.chain'_cons, ne_eq]
        tauto

theorem chain'_lt_of_sorted_of_chain'_ne {l : List ℝ} (hs : l.Sorted (· ≤ ·))
    (hne : l.Chain' (· ≠ ·)) : l.Chain' (· < ·) := by
  induction l with
  | nil => simp
  | cons a rest ih =>
    cases rest with
    | nil => simp
    | cons b t =>
      rw [List.chain'_cons] at hne ⊢
      refine ⟨lt_of_le_of_ne (List.rel_of_sorted_cons hs b (by simp)) hne.1, ?_⟩
      exact ih hs.of_cons hne.2

theorem sorted_fst_insertionSort {T : Type} (l : List (ℝ × T)) :
    ((List.insertionSort (fun a b : ℝ × T => a.1 ≤ b.1) l).map Prod.fst).Sorted (· ≤ ·) := by
  haveI : IsTotal (ℝ × T) (fun a b : ℝ × T => a.1 ≤ b.1) := ⟨fun a b => le_total a.1 b.1⟩
  haveI : IsTrans (ℝ × T) (fun a b : ℝ × T => a.1 ≤ b.1) :=
    ⟨fun _ _ _ h1 h2 => le_trans h1 h2⟩
  have := List.sorted_insertionSort (fun a b : ℝ × T => a.1 ≤ b.1) l
  rw [List.Sorted, List.pairwise_map]
  exact this

/-- C2: `Keyframed<T>::try_from` fails with `NoKeyframes` exactly on the empty
list, fails with `MultipleValuesForFrame` exactly when two pairs share a
frame, and every successful construction stores keyframes whose frames are
strictly increasing. -/
theorem keyframed_tryFrom_spec {T : Type} (l : List (ℝ × T)) :
    (Keyframed.tryFrom l = .error .noKeyframes ↔ l = []) ∧
      ((∃ f, Keyframed.tryFrom l = .error (.multipleValuesForFrame f)) ↔
        ¬ (l.map Prod.fst).Pairwise (· ≠ ·)) ∧
      (∀ k, Keyframed.tryFrom l = .ok k →
        (k.keyframes.map Keyframe.frame).Chain' (· < ·)) := by
  by_cases hl : l = []
  · subst hl
    refine ⟨by simp [Keyframed.tryFrom], ?_, ?_⟩
    · simp [Keyframed.tryFrom]
    · intro k hk
      simp [Keyframed.tryFrom] at hk
  · have hne : ¬ l.isEmpty := by simpa [List.isEmpty_iff] using hl
    set sorted := List.insertionSort (fun a b : ℝ × T => a.1 ≤ b.1) l with hsorted
    have hperm : (sorted.map Prod.fst).Perm (l.map Prod.fst) :=
      (List.perm_insertionSort (fun a b : ℝ × T => a.1 ≤ b.1) l).map Prod.fst
    have hsortedLe : (sorted.map Prod.fst).Sorted (· ≤ ·) := sorted_fst_insertionSort l
    have hiff : (sorted.map Prod.fst).Chain' (· ≠ ·) ↔ (l.map Prod.fst).Pairwise (· ≠ ·) := by
      constructor
      · intro hc
        have hlt : (sorted.map Prod.fst).Chain' (· < ·) :=
          chain'_lt_of_sorted_of_chain'_ne hsortedLe hc
        have hp : (sorted.map Prod.fst).Pairwise (· < ·) := List.chain'_iff_pairwise.mp hlt
        have hpne : (sorted.map Prod.fst).Pairwise (· ≠ ·) :=
          hp.imp (fun h => ne_of_lt h)
        exact ((List.Perm.pairwise_iff (fun h => h.symm) hperm).mp hpne)
      · intro hp
        exact ((List.Perm.pairwise_iff (fun {x y} (h : x ≠ y) => h.symm) hperm).mpr hp).chain'
    refine ⟨?_, ?_, ?_⟩
    · constructor
      · intro h
        rw [Keyframed.tryFrom, if_neg hne, ← hsorted] at h
        rcases hdup : firstAdjacentDupFrame sorted with _ | f
        · rw [hdup] at h
          simp at h
        · rw [hdup] at h
          simp at h
      · intro h
        exact absurd h hl
    · constructor
      · rintro ⟨f, hf⟩
        rw [Keyframed.tryFrom, if_neg hne, ← hsorted] at hf
        rcases hdup : firstAdjacentDupFrame sorted with _ | g
        · rw [hdup] at hf
          simp at hf
        · have : ¬ (sorted.map Prod.fst).Chain' (· ≠ ·) := by
            intro hc
            rw [← firstAdjacentDupFrame_eq_none_iff] at hc
            rw [hc] at hdup
            exact absurd hdup (by simp)
          exact fun hp => this (hiff.mpr hp)
      · intro hp
        rw [Keyframed.tryFrom, if_neg hne, ← hsorted]
        rcases hdup : firstAdjacentDupFrame sorted with _ | f
        · exact absurd (hiff.mp ((firstAdjacentDupFrame_eq_none_iff sorted).mp hdup)) hp
        · exact ⟨f, rfl⟩
    · intro k hk
      rw [Keyframed.tryFrom, if_neg hne, ← hsorted] at hk
      rcases hdup : firstAdjacentDupFrame sorted with _ | f
      · rw [hdup] at hk
        simp only [Except.ok.injEq] at hk
        have hchain : (sorted.map Prod.fst).Chain' (· ≠ ·) :=
          (firstAdjacentDupFrame_eq_none_iff sorted).mp hdup
        have hlt : (sorted.map Prod.fst).Chain' (· < ·) :=
          chain'_lt_of_sorted_of_chain'_ne hsortedLe hchain
        have hmap : k.keyframes.map Keyframe.frame = sorted.map Prod.fst := by
          rw [← hk]
          simp [List.map_map, Function.comp]
        rw [hmap]
        exact hlt
      · rw [hdup] at hk
        simp at hk

theorem map_frame_set_of_eq {T : Type} (kf : Keyframe T) :
    ∀ (l : List (Keyframe T)) (n : ℕ) (x : Keyframe T), l[n]? = some x →
      x.frame = kf.frame → (l.set n kf).map Keyframe.frame = l.map Keyframe.frame := by
  intro l
  induction l with
  | nil => intro n x hx; simp at hx
  | cons a rest ih =>
    intro n x hx hfr
    cases n with
    | zero =>
      simp only [List.getElem?_cons_zero, Option.some.injEq] at hx
      subst hx
      simp [List.set, hfr]
    | succ m =>
      simp only [List.getElem?_cons_succ] at hx
      simp [List.set, ih m x hx hfr]

/-- C3 counterexample: pushing a fresh intermediate frame appends it at the
end, so a strictly ascending series [0, 60] becomes [0, 60, 30], which is not
in ascending frame order. -/
theorem keyframed_push_mid_frame_breaks_order :
    ((Keyframed.mk [⟨0, (0 : ℝ)⟩, ⟨60, 0⟩] none).keyframes.map Keyframe.frame).Chain'
        (· < ·) ∧
      ((Keyframed.mk [⟨0, (0 : ℝ)⟩, ⟨60, 0⟩] none).push ⟨30, 0⟩).keyframes.map
          Keyframe.frame = [0, 60, 30] ∧
      ¬ ((((Keyframed.mk [⟨0, (0 : ℝ)⟩, ⟨60, 0⟩] none).push ⟨30, 0⟩).keyframes.map
          Keyframe.frame).Chain' (· < ·)) := by
  have hfind : ([⟨0, (0 : ℝ)⟩, ⟨60, 0⟩] : List (Keyframe ℝ)).findIdx?
      (fun kf => decide (kf.frame = (30 : ℝ))) = none := by
    rw [List.findIdx?_eq_none_iff]
    intro x hx
    simp only [List.mem_cons, List.not_mem_nil, or_false] at hx
    rcases hx with rfl | rfl <;> simp
  refine ⟨by simp, ?_, ?_⟩
  · rw [Keyframed.push]
    simp only [hfind]
    simp
  · rw [Keyframed.push]
    simp only [hfind]
    simp only [List.map_append, List.map_cons, List.map_nil, List.chain'_cons,
      List.append_eq]
    intro h
    have h2 := h
    simp only [List.cons_append, List.nil_append, List.chain'_cons] at h2
    norm_num at h2

/-- C3 amended: `push` replaces in place on an equal frame (leaving the frame
sequence unchanged, hence still strictly ascending) and otherwise appends at
the end, which preserves strictly ascending order when the new frame exceeds
every existing frame. -/
theorem keyframed_push_spec {T : Type} (k : Keyframed T) (kf : Keyframe T)
    (hsorted : (k.keyframes.map Keyframe.frame).Chain' (· < ·)) :
    ((∃ x ∈ k.keyframes, x.frame = kf.frame) →
        (k.push kf).keyframes.map Keyframe.frame = k.keyframes.map Keyframe.frame ∧
          ((k.push kf).keyframes.map Keyframe.frame).Chain' (· < ·)) ∧
      ((∀ x ∈ k.keyframes, x.frame < kf.frame) →
        (k.push kf).keyframes = k.keyframes ++ [kf] ∧
          ((k.push kf).keyframes.map Keyframe.frame).Chain' (· < ·)) := by
  constructor
  · rintro ⟨x, hx, hfr⟩
    have hex : ∃ pos, k.keyframes.findIdx? (fun kf' => decide (kf'.frame = kf.frame))
        = some pos := by
      rcases h : k.keyframes.findIdx? (fun kf' => decide (kf'.frame = kf.frame)) with _ | pos
      · rw [List.findIdx?_eq_none_iff] at h
        have := h x hx
        simp [hfr] at this
      · exact ⟨pos, h⟩
    rcases hex with ⟨pos, hpos⟩
    have hspec := List.findIdx?_eq_some_iff_getElem.mp hpos
    rcases hspec with ⟨hlt, hp, _⟩
    have hget : k.keyframes[pos]? = some k.keyframes[pos] := List.getElem?_eq_getElem hlt
    have hfr' : (k.keyframes[pos]).frame = kf.frame := by
      simpa using hp
    have hmap := map_frame_set_of_eq kf k.keyframes pos _ hget hfr'
    rw [Keyframed.push, hpos]
    exact ⟨hmap, by rw [hmap]; exact hsorted⟩
  · intro hall
    have hnone : k.keyframes.findIdx? (fun kf' => decide (kf'.frame = kf.frame)) = none := by
      rw [List.findIdx?_eq_none_iff]
      intro x hx
      simp only [decide_eq_false_iff_not]
      exact ne_of_lt (hall x hx)
    rw [Keyframed.push, hnone]
    refine ⟨rfl, ?_⟩
    simp only [List.map_append, List.map_cons, List.map_nil]
    rw [List.chain'_append]
    refine ⟨hsorted, by simp, ?_⟩
    intro x hx y hy
    simp only [List.head?_cons, Option.mem_def, Option.some.injEq] at hy
    subst hy
    have hx' : x ∈ k.keyframes.map Keyframe.frame := List.mem_of_mem_getLast? hx
    rcases List.mem_map.mp hx' with ⟨z, hz, rfl⟩
    exact hall z hz

/-- Witness for `keyframed_push_spec`: pushing frame 60 onto the
single-keyframe series at frame 0 appends it and keeps the order strict. -/
theorem keyframed_push_spec_witness :
    ((Keyframed.mk [⟨0, (0 : ℝ)⟩] none).push ⟨60, 0⟩).keyframes =
        [⟨0, (0 : ℝ)⟩] ++ [⟨60, 0⟩] ∧
      (((Keyframed.mk [⟨0, (0 : ℝ)⟩] none).push ⟨60, 0⟩).keyframes.map
          Keyframe.frame).Chain' (· < ·) :=
  (keyframed_push_spec (Keyframed.mk [⟨0, (0 : ℝ)⟩] none) ⟨60, 0⟩ (by simp)).2
    (by
      intro x hx
      simp only [List.mem_singleton] at hx
      subst hx
      norm_num)

/-! ## spring2cubic.rs -/

/-- kurbo `CubicBez` (external library): four control points. -/
structure CubicBez where
  p0 : Pt
  p1 : Pt
  p2 : Pt
  p3 : Pt

instance : Inhabited CubicBez := ⟨⟨(0, 0), (0, 0), (0, 0), (0, 0)⟩⟩

/-- kurbo `Affine::scale_non_uniform(sx, sy).then_translate((dx, dy))`
(external library) applied to a point. -/
def scaleThenTranslate (sx sy dx dy : ℝ) (p : Pt) : Pt :=
  (sx * p.1 + dx, sy * p.2 + dy)

/-- `transform * cubic`: the affine applied to each control point. -/
def CubicBez.transformBy (sx sy dx dy : ℝ) (c : CubicBez) : CubicBez :=
  ⟨scaleThenTranslate sx sy dx dy c.p0, scaleThenTranslate sx sy dx dy c.p1,
    scaleThenTranslate sx sy dx dy c.p2, scaleThenTranslate sx sy dx dy c.p3⟩

/-- `CubicApproximationError` (error.rs). -/
inductive CubicApproximationError where
  | unrecognizedSpring
  | ranTooLong
deriving DecidableEq

noncomputable instance : DecidableEq Spring := fun _ _ => Classical.propDecidable _

/-- `TIME_LIMIT` (spring2cubic.rs). -/
noncomputable def TIME_LIMIT : ℝ := 5.0

/-- `handwritten_cubic` (spring2cubic.rs, lines 50-84): the hand-tuned cubic
templates, selected by equality with the preset springs (the source's match
guards `_ if spring == Spring::standard()` etc., in source order). -/
noncomputable def handwritten_cubic (spring : Spring) :
    Except CubicApproximationError (List CubicBez) :=
  if spring = Spring.standard then
    .ok [⟨(0, 0), (13, 100), (0, 100), (43, 100)⟩]
  else if spring = Spring.smooth_spatial then
    .ok [⟨(0, 0), (20, 100), (0, 100), (61, 100)⟩]
  else if spring = Spring.expressive_spatial then
    .ok [⟨(0, 0), (5, 15), (3, 101.54), (15.5, 101.54)⟩,
      ⟨(15.5, 101.54), (21, 101.54), (21, 99), (42, 100)⟩]
  else .error .unrecognizedSpring

/-- The simulation trace of the `num_frames` loop (spring2cubic.rs): the
animated value after `k` loop iterations (iteration `k` updates at time
`k / frame_rate`). -/
noncomputable def avSeq (frame_rate : ℝ) (spring : Spring) (animation : AnimatedValue) :
    ℕ → AnimatedValue
  | 0 => animation
  | n + 1 => spring.update ((n : ℝ) / frame_rate) (avSeq frame_rate spring animation n)

open Classical in
/-- The loop of `num_frames` (spring2cubic.rs, lines 86-103), with explicit
fuel to make the recursion structural.  `num_frames` below supplies fuel
strictly larger than any frame count the time cap admits, so for positive
frame rates the fuel-exhausted branch (which returns the same `RanTooLong`
the cap returns) is never the deciding one. -/
noncomputable def num_frames_loop (frame_rate : ℝ) (spring : Spring) :
    ℕ → ℕ → AnimatedValue → Except CubicApproximationError ℕ
  | 0, _, _ => .error .ranTooLong
  | fuel + 1, frame, animated_value =>
      if animated_value.is_at_equilibrium then .ok frame
      else if (frame : ℝ) / frame_rate > TIME_LIMIT then .error .ranTooLong
      else
        num_frames_loop frame_rate spring fuel (frame + 1)
          (spring.update ((frame : ℝ) / frame_rate) animated_value)

/-- `num_frames` (spring2cubic.rs, lines 86-103). -/
noncomputable def num_frames (frame_rate : ℝ) (animation : AnimatedValue) (spring : Spring) :
    Except CubicApproximationError ℕ :=
  num_frames_loop frame_rate spring (Nat.ceil (TIME_LIMIT * frame_rate) + 2) 0 animation

/-- `cubic_approximation` (spring2cubic.rs, lines 25-48).  The source's
`handwritten_curve.last().unwrap()` is modelled with `getLast?.getD default`;
every template is nonempty so the default is never taken. -/
noncomputable def cubic_approximation (frame_rate : ℝ) (animation : AnimatedValue)
    (spring : Spring) : Except CubicApproximationError (List CubicBez) :=
  match handwritten_cubic spring with
  | .error e => .error e
  | .ok handwritten_curve =>
      match num_frames frame_rate animation spring with
      | .error e => .error e
      | .ok n =>
          .ok (handwritten_curve.map (CubicBez.transformBy
            ((n : ℝ) / (handwritten_curve.getLast?.getD default).p3.1)
            ((animation.final_value - animation.value) / 100) 0 animation.value))

/-- The spec's "reaches equilibrium within the 5.0-second cap", as a property
of the simulation trace: equilibrium first holds at frame `n`, and every
earlier iteration passed the time-cap check. -/
noncomputable def reaches_equilibrium_at (frame_rate : ℝ) (animation : AnimatedValue)
    (spring : Spring) (n : ℕ) : Prop :=
  (avSeq frame_rate spring animation n).is_at_equilibrium ∧
    ∀ k < n, ¬ (avSeq frame_rate spring animation k).is_at_equilibrium ∧
      (k : ℝ) / frame_rate ≤ TIME_LIMIT

/-- The spec's "the simulation exceeds the 5.0-second cap", as a property of
the simulation trace. -/
noncomputable def runs_past_cap (frame_rate : ℝ) (animation : AnimatedValue)
    (spring : Spring) : Prop :=
  ∃ m, (∀ k ≤ m, ¬ (avSeq frame_rate spring animation k).is_at_equilibrium) ∧
    (∀ k < m, (k : ℝ) / frame_rate ≤ TIME_LIMIT) ∧
    TIME_LIMIT < (m : ℝ) / frame_rate

theorem num_frames_loop_ok (frame_rate : ℝ) (spring : Spring) (animation : AnimatedValue)
    (n : ℕ)
    (heq : (avSeq frame_rate spring animation n).is_at_equilibrium)
    (hpre : ∀ k < n, ¬ (avSeq frame_rate spring animation k).is_at_equilibrium ∧
      (k : ℝ) / frame_rate ≤ TIME_LIMIT) :
    ∀ fuel j, j ≤ n → n - j < fuel →
      num_frames_loop frame_rate spring fuel j (avSeq frame_rate spring animation j) =
        .ok n := by
  intro fuel
  induction fuel with
  | zero => intro j _ h; omega
  | succ fuel ih =>
    intro j hj hfuel
    rw [num_frames_loop]
    by_cases hj' : j = n
    · subst hj'
      rw [if_pos heq]
    · have hjlt : j < n := lt_of_le_of_ne hj hj'
      obtain ⟨hne, hcap⟩ := hpre j hjlt
      rw [if_neg hne, if_neg (not_lt.mpr hcap)]
      have : spring.update ((j : ℝ) / frame_rate)
          (avSeq frame_rate spring animation j) =
          avSeq frame_rate spring animation (j + 1) := rfl
      rw [this]
      exact ih (j + 1) hjlt (by omega)

theorem num_frames_loop_err (frame_rate : ℝ) (spring : Spring) (animation : AnimatedValue)
    (m : ℕ)
    (hne : ∀ k ≤ m, ¬ (avSeq frame_rate spring animation k).is_at_equilibrium)
    (hcap : ∀ k < m, (k : ℝ) / frame_rate ≤ TIME_LIMIT)
    (hover : TIME_LIMIT < (m : ℝ) / frame_rate) :
    ∀ fuel j, j ≤ m → m - j < fuel →
      num_frames_loop frame_rate spring fuel j (avSeq frame_rate spring animation j) =
        .error .ranTooLong := by
  intro fuel
  induction fuel with
  | zero => intro j _ h; omega
  | succ fuel ih =>
    intro j hj hfuel
    rw [num_frames_loop]
    rw [if_neg (hne j hj)]
    by_cases hj' : j = m
    · subst hj'
      rw [if_pos hover]
    · have hjlt : j < m := lt_of_le_of_ne hj hj'
      rw [if_neg (not_lt.mpr (hcap j hjlt))]
      have : spring.update ((j : ℝ) / frame_rate)
          (avSeq frame_rate spring animation j) =
          avSeq frame_rate spring animation (j + 1) := rfl
      rw [this]
      exact ih (j + 1) hjlt (by omega)

theorem le_ceil_succ_of_div_le (frame_rate : ℝ) (hfr : 0 < frame_rate) (n : ℕ)
    (h : ∀ k < n, (k : ℝ) / frame_rate ≤ TIME_LIMIT) :
    n < Nat.ceil (TIME_LIMIT * frame_rate) + 2 := by
  rcases n with _ | m
  · omega
  · have hm := h m (by omega)
    have hmr : (m : ℝ) ≤ TIME_LIMIT * frame_rate := by
      rw [div_le_iff₀ hfr] at hm
      linarith
    have : (m : ℕ) ≤ Nat.ceil (TIME_LIMIT * frame_rate) := by
      have := hmr.trans (Nat.le_ceil (TIME_LIMIT * frame_rate))
      exact_mod_cast this
    omega

theorem num_frames_of_reaches (frame_rate : ℝ) (animation : AnimatedValue) (spring : Spring)
    (n : ℕ) (hfr : 0 < frame_rate)
    (h : reaches_equilibrium_at frame_rate animation spring n) :
    num_frames frame_rate animation spring = .ok n := by
  obtain ⟨heq, hpre⟩ := h
  have hn : n < Nat.ceil (TIME_LIMIT * frame_rate) + 2 :=
    le_ceil_succ_of_div_le frame_rate hfr n (fun k hk => (hpre k hk).2)
  have := num_frames_loop_ok frame_rate spring animation n heq hpre
    (Nat.ceil (TIME_LIMIT * frame_rate) + 2) 0 (by omega) (by omega)
  simpa [num_frames, avSeq] using this

theorem num_frames_of_runs_past_cap (frame_rate : ℝ) (animation : AnimatedValue)
    (spring : Spring) (hfr : 0 < frame_rate)
    (h : runs_past_cap frame_rate animation spring) :
    num_frames frame_rate animation spring = .error .ranTooLong := by
  obtain ⟨m, hne, hcap, hover⟩ := h
  have hm : m < Nat.ceil (TIME_LIMIT * frame_rate) + 2 :=
    le_ceil_succ_of_div_le frame_rate hfr m hcap
  have := num_frames_loop_err frame_rate spring animation m hne hcap hover
    (Nat.ceil (TIME_LIMIT * frame_rate) + 2) 0 (by omega) (by omega)
  simpa [num_frames, avSeq] using this

/-- C5: for a spring matching a stored template, when the simulation reaches
equilibrium at frame `n` within the 5-second cap, `cubic_approximation`
returns the template scaled by `sx = n / template_end_x`,
`sy = (v_end − v_start)/100` and translated by `(0, v_start)`; when the
simulation exceeds the cap it fails `RanTooLong`; a spring matching no stored
template fails `UnrecognizedSpring`. -/
theorem cubic_approximation_spec (frame_rate : ℝ) (animation : AnimatedValue)
    (spring : Spring) (hfr : 0 < frame_rate) :
    (∀ tmpl n, handwritten_cubic spring = .ok tmpl →
        reaches_equilibrium_at frame_rate animation spring n →
        cubic_approximation frame_rate animation spring =
          .ok (tmpl.map (CubicBez.transformBy
            ((n : ℝ) / (tmpl.getLast?.getD default).p3.1)
            ((animation.final_value - animation.value) / 100) 0 animation.value))) ∧
      (∀ tmpl, handwritten_cubic spring = .ok tmpl →
        runs_past_cap frame_rate animation spring →
        cubic_approximation frame_rate animation spring = .error .ranTooLong) ∧
      ((spring ≠ Spring.standard ∧ spring ≠ Spring.smooth_spatial ∧
          spring ≠ Spring.expressive_spatial) →
        cubic_approximation frame_rate animation spring = .error .unrecognizedSpring) := by
  refine ⟨?_, ?_, ?_⟩
  · intro tmpl n htmpl hreach
    have hnum := num_frames_of_reaches frame_rate animation spring n hfr hreach
    rw [cubic_approximation, htmpl, hnum]
  · intro tmpl htmpl hcap
    have hnum := num_frames_of_runs_past_cap frame_rate animation spring hfr hcap
    rw [cubic_approximation, htmpl, hnum]
  · rintro ⟨h1, h2, h3⟩
    rw [cubic_approximation, handwritten_cubic, if_neg h1, if_neg h2, if_neg h3]

/-- Witness for `cubic_approximation_spec`: the standard spring with an
animation already at equilibrium (0 → 0, Scale) at 60 fps yields the standard
template scaled by `sx = 0/43 = 0`, `sy = 0/100 = 0` and translated by
`(0, 0)`, i.e. a single degenerate cubic at the origin. -/
theorem cubic_approximation_spec_witness :
    cubic_approximation 60 (AnimatedValue.new 0 0 .scale) Spring.standard =
      .ok [⟨(0, 0), (0, 0), (0, 0), (0, 0)⟩] := by
  have hw : handwritten_cubic Spring.standard =
      .ok [⟨(0, 0), (13, 100), (0, 100), (43, 100)⟩] := by
    rw [handwritten_cubic, if_pos rfl]
  have hre : reaches_equilibrium_at 60 (AnimatedValue.new 0 0 .scale) Spring.standard 0 := by
    constructor
    · show (AnimatedValue.new 0 0 .scale).is_at_equilibrium
      constructor <;>
        norm_num [AnimatedValue.new, AnimatedValueType.thresholds,
          VELOCITY_THRESHOLD_MULTIPLIER]
    · intro k hk
      omega
  have h := (cubic_approximation_spec 60 (AnimatedValue.new 0 0 .scale) Spring.standard
    (by norm_num)).1 [⟨(0, 0), (13, 100), (0, 100), (43, 100)⟩] 0 hw hre
  rw [h]
  norm_num [CubicBez.transformBy, scaleThenTranslate, AnimatedValue.new]

/-! ## ir.rs : group_parts -/

/-- kurbo `Rect` (external library). -/
structure Rect where
  x0 : ℝ
  y0 : ℝ
  x1 : ℝ
  y1 : ℝ

noncomputable instance : DecidableEq Rect := fun _ _ => Classical.propDecidable _

/-- kurbo `Rect::intersect` (external library): coordinate-wise intersection,
clamped so the result never has negative width or height. -/
noncomputable def Rect.intersect (r other : Rect) : Rect :=
  ⟨max r.x0 other.x0, max r.y0 other.y0,
    max (min r.x1 other.x1) (max r.x0 other.x0),
    max (min r.y1 other.y1) (max r.y0 other.y0)⟩

/-- kurbo `Rect::area` (external library): width times height. -/
def Rect.area (r : Rect) : ℝ := (r.x1 - r.x0) * (r.y1 - r.y0)

/-- A rectangle with nonempty interior, as every bounding box of a subpath
with interior points is. -/
def Rect.proper (r : Rect) : Prop := r.x0 < r.x1 ∧ r.y0 < r.y1

/-- Rectangle containment, the claim's "fully contains". -/
def Rect.containsRect (g b : Rect) : Prop :=
  g.x0 ≤ b.x0 ∧ g.y0 ≤ b.y0 ∧ b.x1 ≤ g.x1 ∧ b.y1 ≤ g.y1

/-- The containment test of ir.rs line 237: `group_bbox.intersect(bbox) == bbox`. -/
noncomputable def containsTest (g b : Rect) : Prop := g.intersect b = b

theorem containsTest_iff_containsRect (g b : Rect) (hb : b.proper) :
    containsTest g b ↔ g.containsRect b := by
  obtain ⟨hbx, hby⟩ := hb
  unfold containsTest Rect.intersect Rect.containsRect
  rw [Rect.mk.injEq]
  constructor
  · rintro ⟨h1, h2, h3, h4⟩
    have hx0 : g.x0 ≤ b.x0 := by
      by_contra hc
      push_neg at hc
      rw [max_eq_left hc.le] at h1
      exact absurd h1 (ne_of_gt hc)
    have hy0 : g.y0 ≤ b.y0 := by
      by_contra hc
      push_neg at hc
      rw [max_eq_left hc.le] at h2
      exact absurd h2 (ne_of_gt hc)
    rw [max_eq_right hx0] at h3
    rw [max_eq_right hy0] at h4
    have hx1 : b.x1 ≤ g.x1 := by
      rcases le_total (min g.x1 b.x1) b.x0 with hle | hle
      · rw [max_eq_right hle] at h3
        exact absurd h3 (by linarith)
      · rw [max_eq_left hle] at h3
        exact min_eq_right_iff.mp h3
    have hy1 : b.y1 ≤ g.y1 := by
      rcases le_total (min g.y1 b.y1) b.y0 with hle | hle
      · rw [max_eq_right hle] at h4
        exact absurd h4 (by linarith)
      · rw [max_eq_left hle] at h4
        exact min_eq_right_iff.mp h4
    exact ⟨hx0, hy0, hx1, hy1⟩
  · rintro ⟨hx0, hy0, hx1, hy1⟩
    have e1 : max g.x0 b.x0 = b.x0 := max_eq_right hx0
    have e2 : max g.y0 b.y0 = b.y0 := max_eq_right hy0
    have e3 : min g.x1 b.x1 = b.x1 := min_eq_right hx1
    have e4 : min g.y1 b.y1 = b.y1 := min_eq_right hy1
    rw [e1, e2, e3, e4, max_eq_left (le_of_lt hbx), max_eq_left (le_of_lt hby)]
    exact ⟨rfl, rfl, rfl, rfl⟩

/-- The per-subpath attributes `group_parts` (ir.rs, lines 190-268) computes
upstream with the external kurbo library before its grouping core: the
nonzero-winding filledness flag (lines 196-209) and the subpath's bounding
box.  The grouping core (lines 211-247) reads nothing else about a subpath. -/
structure PartInfo where
  filled : Bool
  bbox : Rect

instance : Inhabited PartInfo := ⟨⟨false, ⟨0, 0, 0, 0⟩⟩⟩

/-- The sort key of ir.rs lines 213-218: `(-(filled as i32), bbox area)`. -/
noncomputable def partKey (p : PartInfo) : ℤ × ℝ :=
  (-(if p.filled then 1 else 0), p.bbox.area)

/-- Lexicographic order on sort keys (`Ord` on `(i32, OrderedFloat)`). -/
def keyLe : ℤ × ℝ → ℤ × ℝ → Prop :=
  fun a b => a.1 < b.1 ∨ (a.1 = b.1 ∧ a.2 ≤ b.2)

noncomputable instance : DecidableRel keyLe := fun _ _ => Classical.propDecidable _

/-- ir.rs lines 212-218: the subpath indices sorted by key
(`sort_by_cached_key` is a stable sort; insertion sort is stable). -/
noncomputable def orderedIndices (parts : List PartInfo) : List ℕ :=
  List.insertionSort
    (fun i j => keyLe (partKey (parts.getD i default)) (partKey (parts.getD j default)))
    (List.range parts.length)

noncomputable instance instDecContainsTest (g b : Rect) : Decidable (containsTest g b) :=
  Classical.propDecidable _

/-- The grouping loop of ir.rs lines 223-247, tracking groups by subpath
index: where the source pushes `shapes[i].clone()` into `groups`, this model
records the index `i`; `bboxes[n]` is the bounding box of the filled subpath
that started group `n`, exactly as in the source. -/
noncomputable def assignParts (parts : List PartInfo) :
    List ℕ → List (List ℕ) × List Rect → List (List ℕ) × List Rect
  | [], acc => acc
  | i :: rest, (groups, bboxes) =>
      let p := parts.getD i default
      if p.filled then
        assignParts parts rest (groups ++ [[i]], bboxes ++ [p.bbox])
      else
        match bboxes.findIdx? (fun group_bbox => decide (containsTest group_bbox p.bbox)) with
        | some gi => assignParts parts rest (groups.set gi (groups.getD gi [] ++ [i]), bboxes)
        | none => assignParts parts rest (groups, bboxes)

/-- The grouping core of `group_parts` (ir.rs, lines 211-247): process the
sorted indices, returning the groups (as index lists) and their recorded
bounding boxes. -/
noncomputable def group_parts_core (parts : List PartInfo) : List (List ℕ) × List Rect :=
  assignParts parts (orderedIndices parts) ([], [])

theorem assignParts_append (parts : List PartInfo) (l1 l2 : List ℕ) :
    ∀ acc, assignParts parts (l1 ++ l2) acc = assignParts parts l2 (assignParts parts l1 acc) := by
  induction l1 with
  | nil => intro acc; rfl
  | cons j rest ih =>
    rintro ⟨groups, bboxes⟩
    rw [List.cons_append, assignParts, assignParts]
    by_cases hf : (parts.getD j default).filled
    · rw [if_pos hf, if_pos hf]
      exact ih _
    · rw [if_neg hf, if_neg hf]
      rcases hidx : bboxes.findIdx?
          (fun group_bbox => decide (containsTest group_bbox (parts.getD j default).bbox)) with
        _ | gi
      · exact ih _
      · exact ih _

theorem assignParts_all_filled (parts : List PartInfo) :
    ∀ (F : List ℕ) (groups : List (List ℕ)) (bboxes : List Rect),
      (∀ j ∈ F, (parts.getD j default).filled) →
      assignParts parts F (groups, bboxes) =
        (groups ++ F.map (fun i => [i]),
          bboxes ++ F.map (fun i => (parts.getD i default).bbox)) := by
  intro F
  induction F with
  | nil => intro groups bboxes _; simp [assignParts]
  | cons j rest ih =>
    intro groups bboxes hF
    rw [assignParts, if_pos (hF j (by simp))]
    rw [ih _ _ (fun k hk => hF k (by simp [hk]))]
    simp

theorem assignParts_all_unfilled_snd (parts : List PartInfo) :
    ∀ (U : List ℕ) (groups : List (List ℕ)) (bboxes : List Rect),
      (∀ j ∈ U, ¬ (parts.getD j default).filled) →
      (assignParts parts U (groups, bboxes)).2 = bboxes := by
  intro U
  induction U with
  | nil => intro groups bboxes _; rfl
  | cons j rest ih =>
    intro groups bboxes hU
    rw [assignParts, if_neg (hU j (by simp))]
    rcases hidx : bboxes.findIdx?
        (fun group_bbox => decide (containsTest group_bbox (parts.getD j default).bbox)) with
      _ | gi
    · exact ih _ _ (fun k hk => hU k (by simp [hk]))
    · exact ih _ _ (fun k hk => hU k (by simp [hk]))

theorem assignParts_length (parts : List PartInfo) :
    ∀ (L : List ℕ) (groups : List (List ℕ)) (bboxes : List Rect),
      groups.length = bboxes.length →
      (assignParts parts L (groups, bboxes)).1.length =
          (assignParts parts L (groups, bboxes)).2.length := by
  intro L
  induction L with
  | nil => intro groups bboxes h; exact h
  | cons j rest ih =>
    intro groups bboxes h
    rw [assignParts]
    by_cases hf : (parts.getD j default).filled
    · rw [if_pos hf]
      exact ih _ _ (by simp [h])
    · rw [if_neg hf]
      rcases hidx : bboxes.findIdx?
          (fun group_bbox => decide (containsTest group_bbox (parts.getD j default).bbox)) with
        _ | gi
      · exact ih _ _ h
      · exact ih _ _ (by simp [h])

theorem countP_set_mem_iff {α : Type} (p : α → Bool) :
    ∀ (l : List α) (n : ℕ) (x : α), n < l.length → p x = p (l.getD n x) →
      (l.set n x).countP p = l.countP p := by
  intro l
  induction l with
  | nil => intro n x h; simp at h
  | cons a rest ih =>
    intro n x hn hx
    cases n with
    | zero =>
      simp only [List.getD_cons_zero] at hx
      simp [List.set, List.countP_cons, hx]
    | succ m =>
      simp only [List.getD_cons_succ] at hx
      simp only [List.length_cons, Nat.succ_lt_succ_iff] at hn
      simp [List.set, List.countP_cons, ih m x hn hx]

theorem assignParts_countP_stable (parts : List PartInfo) (i : ℕ) :
    ∀ (L : List ℕ) (groups : List (List ℕ)) (bboxes : List Rect),
      i ∉ L → groups.length = bboxes.length →
      (assignParts parts L (groups, bboxes)).1.countP (fun g => decide (i ∈ g)) =
        groups.countP (fun g => decide (i ∈ g)) := by
  intro L
  induction L with
  | nil => intro groups bboxes _ _; rfl
  | cons j rest ih =>
    intro groups bboxes hL hlen
    have hji : j ≠ i := fun h => hL (by simp [h])
    have hrest : i ∉ rest := fun h => hL (by simp [h])
    rw [assignParts]
    by_cases hf : (parts.getD j default).filled
    · rw [if_pos hf]
      rw [ih _ _ hrest (by simp [hlen])]
      simp [List.countP_append, List.countP_cons, Ne.symm hji]
    · rw [if_neg hf]
      rcases hidx : bboxes.findIdx?
          (fun group_bbox => decide (containsTest group_bbox (parts.getD j default).bbox)) with
        _ | gi
      · exact ih _ _ hrest hlen
      · have hgi : gi < bboxes.length := by
          obtain ⟨h, _, _⟩ := List.findIdx?_eq_some_iff_getElem.mp hidx
          exact h
        have hgi' : gi < groups.length := by omega
        rw [ih _ _ hrest (by simp [hlen])]
        apply countP_set_mem_iff
        · exact hgi'
        · have : groups.getD gi (groups.getD gi [] ++ [j]) = groups.getD gi [] := by
            rw [List.getD_eq_getElem?_getD, List.getD_eq_getElem?_getD,
              List.getElem?_eq_getElem hgi']
            simp
          rw [this]
          simp [Ne.symm hji]

theorem not_mem_getD_of_not_mem (groups : List (List ℕ)) (gi : ℕ) (i : ℕ)
    (hacc : ∀ g ∈ groups, i ∉ g) : i ∉ groups.getD gi [] := by
  by_cases h : gi < groups.length
  · rw [List.getD_eq_getElem?_getD, List.getElem?_eq_getElem h]
    exact fun hm => hacc _ (List.getElem_mem h) (by simpa using hm)
  · rw [List.getD_eq_getElem?_getD, List.getElem?_eq_none (by omega)]
    simp

theorem countP_set_eq {α : Type} (p : α → Bool) :
    ∀ (l : List α) (n : ℕ) (x : α), n < l.length →
      (l.set n x).countP p + (if p (l.getD n x) then 1 else 0) =
        l.countP p + (if p x then 1 else 0) := by
  intro l
  induction l with
  | nil => intro n x h; simp at h
  | cons a rest ih =>
    intro n x hn
    cases n with
    | zero =>
      rw [List.getD_cons_zero, List.set_cons_zero, List.countP_cons, List.countP_cons]
      omega
    | succ m =>
      rw [List.getD_cons_succ, List.set_cons_succ, List.countP_cons, List.countP_cons]
      simp only [List.length_cons, Nat.succ_lt_succ_iff] at hn
      have := ih m x hn
      omega

theorem countP_set_le {α : Type} (p : α → Bool) :
    ∀ (l : List α) (n : ℕ) (x : α), (l.set n x).countP p ≤ l.countP p + 1 := by
  intro l
  induction l with
  | nil => intro n x; simp
  | cons a rest ih =>
    intro n x
    cases n with
    | zero =>
      rw [List.set_cons_zero, List.countP_cons, List.countP_cons]
      have h1 : (if p x = true then 1 else 0) ≤ 1 := by split <;> omega
      omega
    | succ m =>
      rw [List.set_cons_succ, List.countP_cons, List.countP_cons]
      have := ih m x
      omega

theorem assignParts_countP_filled (parts : List PartInfo) (i : ℕ) :
    ∀ (L : List ℕ) (groups : List (List ℕ)) (bboxes : List Rect),
      L.Nodup → i ∈ L → (parts.getD i default).filled →
      (∀ g ∈ groups, i ∉ g) → groups.length = bboxes.length →
      (assignParts parts L (groups, bboxes)).1.countP (fun g => decide (i ∈ g)) = 1 := by
  intro L
  induction L with
  | nil => intro groups bboxes _ hi; simp at hi
  | cons j rest ih =>
    intro groups bboxes hnd hi hfi hacc hlen
    have hnd' : rest.Nodup := (List.nodup_cons.mp hnd).2
    rw [assignParts]
    by_cases hji : j = i
    · subst hji
      rw [if_pos hfi]
      have hnotin : j ∉ rest := (List.nodup_cons.mp hnd).1
      rw [assignParts_countP_stable parts j rest _ _ hnotin (by simp [hlen])]
      rw [List.countP_append]
      have h0 : groups.countP (fun g => decide (j ∈ g)) = 0 :=
        List.countP_eq_zero.mpr (fun g hg => by simpa using hacc g hg)
      simp [h0]
    · have hi' : i ∈ rest := by
        rcases List.mem_cons.mp hi with h | h
        · exact absurd h.symm hji
        · exact h
      by_cases hf : (parts.getD j default).filled
      · rw [if_pos hf]
        refine ih _ _ hnd' hi' hfi ?_ (by simp [hlen])
        intro g hg
        rcases List.mem_append.mp hg with h | h
        · exact hacc g h
        · simp only [List.mem_singleton] at h
          subst h
          simp [Ne.symm hji]
      · rw [if_neg hf]
        rcases hidx : bboxes.findIdx?
            (fun group_bbox => decide (containsTest group_bbox (parts.getD j default).bbox)) with
          _ | gi
        · exact ih _ _ hnd' hi' hfi hacc hlen
        · refine ih _ _ hnd' hi' hfi ?_ (by simp [hlen])
          intro g hg
          rcases List.mem_or_eq_of_mem_set hg with h | h
          · exact hacc g h
          · subst h
            intro hmem
            rcases List.mem_append.mp hmem with h2 | h2
            · exact not_mem_getD_of_not_mem groups gi i hacc h2
            · simp only [List.mem_singleton] at h2
              exact hji h2.symm

theorem assignParts_countP_unfilled (parts : List PartInfo) (i : ℕ) :
    ∀ (L : List ℕ) (groups : List (List ℕ)) (bboxes : List Rect),
      L.Nodup → ¬ (parts.getD i default).filled →
      (∀ g ∈ groups, i ∉ g) → groups.length = bboxes.length →
      (assignParts parts L (groups, bboxes)).1.countP (fun g => decide (i ∈ g)) ≤ 1 := by
  intro L
  induction L with
  | nil =>
    intro groups bboxes _ _ hacc _
    have h0 : groups.countP (fun g => decide (i ∈ g)) = 0 :=
      List.countP_eq_zero.mpr (fun g hg => by simpa using hacc g hg)
    simp [assignParts, h0]
  | cons j rest ih =>
    intro groups bboxes hnd hufi hacc hlen
    have hnd' : rest.Nodup := (List.nodup_cons.mp hnd).2
    rw [assignParts]
    by_cases hji : j = i
    · subst hji
      rw [if_neg hufi]
      have hnotin : j ∉ rest := (List.nodup_cons.mp hnd).1
      rcases hidx : bboxes.findIdx?
          (fun group_bbox => decide (containsTest group_bbox (parts.getD j default).bbox)) with
        _ | gi
      · rw [assignParts_countP_stable parts j rest _ _ hnotin hlen]
        have h0 : groups.countP (fun g => decide (j ∈ g)) = 0 :=
          List.countP_eq_zero.mpr (fun g hg => by simpa using hacc g hg)
        simp [h0]
      · rw [assignParts_countP_stable parts j rest _ _ hnotin (by simp [hlen])]
        have h0 : groups.countP (fun g => decide (j ∈ g)) = 0 :=
          List.countP_eq_zero.mpr (fun g hg => by simpa using hacc g hg)
        have hle := countP_set_le (fun g => decide (j ∈ g)) groups gi
          (groups.getD gi [] ++ [j])
        omega
    · have hacc2 : ∀ (x : List ℕ) (hx : True), True := fun _ _ => trivial
      by_cases hf : (parts.getD j default).filled
      · rw [if_pos hf]
        refine ih _ _ hnd' hufi ?_ (by simp [hlen])
        intro g hg
        rcases List.mem_append.mp hg with h | h
        · exact hacc g h
        · simp only [List.mem_singleton] at h
          subst h
          simp [Ne.symm hji]
      · rw [if_neg hf]
        rcases hidx : bboxes.findIdx?
            (fun group_bbox => decide (containsTest group_bbox (parts.getD j default).bbox)) with
          _ | gi
        · exact ih _ _ hnd' hufi hacc hlen
        · refine ih _ _ hnd' hufi ?_ (by simp [hlen])
          intro g hg
          rcases List.mem_or_eq_of_mem_set hg with h | h
          · exact hacc g h
          · subst h
            intro hmem
            rcases List.mem_append.mp hmem with h2 | h2
            · exact not_mem_getD_of_not_mem groups gi i hacc h2
            · simp only [List.mem_singleton] at h2
              exact hji h2.symm

/-- Index `gi` of the group list holds a group containing subpath index `i`. -/
def memAt (i : ℕ) (G : List (List ℕ)) (gi : ℕ) : Prop :=
  ∃ g, G[gi]? = some g ∧ i ∈ g

theorem memAt_set_append_iff (i j : ℕ) (G : List (List ℕ)) (g0 : ℕ)
    (hij : i ≠ j) (hg0 : g0 < G.length) :
    ∀ gi, memAt i (G.set g0 (G.getD g0 [] ++ [j])) gi ↔ memAt i G gi := by
  intro gi
  by_cases hgi : g0 = gi
  · subst hgi
    unfold memAt
    rw [List.getElem?_set_self hg0]
    constructor
    · rintro ⟨g, hg, hmem⟩
      simp only [Option.some.injEq] at hg
      subst hg
      rcases List.mem_append.mp hmem with h | h
      · refine ⟨G[g0], List.getElem?_eq_getElem hg0, ?_⟩
        rw [List.getD_eq_getElem?_getD, List.getElem?_eq_getElem hg0] at h
        simpa using h
      · simp only [List.mem_singleton] at h
        exact absurd h hij
    · rintro ⟨g, hg, hmem⟩
      refine ⟨G.getD g0 [] ++ [j], rfl, ?_⟩
      rw [List.getD_eq_getElem?_getD, hg]
      simp [hmem]
  · unfold memAt
    rw [List.getElem?_set_ne hgi]

theorem assignParts_memAt_stable (parts : List PartInfo) (i : ℕ) :
    ∀ (U : List ℕ) (groups : List (List ℕ)) (bboxes : List Rect),
      (∀ j ∈ U, ¬ (parts.getD j default).filled) → i ∉ U →
      groups.length = bboxes.length →
      ∀ gi, memAt i (assignParts parts U (groups, bboxes)).1 gi ↔ memAt i groups gi := by
  intro U
  induction U with
  | nil => intro groups bboxes _ _ _ gi; rfl
  | cons j rest ih =>
    intro groups bboxes hU hi hlen gi
    have hij : i ≠ j := fun h => hi (by simp [h])
    have hirest : i ∉ rest := fun h => hi (by simp [h])
    rw [assignParts, if_neg (hU j (by simp))]
    rcases hidx : bboxes.findIdx?
        (fun group_bbox => decide (containsTest group_bbox (parts.getD j default).bbox)) with
      _ | g0
    · exact ih _ _ (fun k hk => hU k (by simp [hk])) hirest hlen gi
    · have hg0 : g0 < groups.length := by
        obtain ⟨h, _, _⟩ := List.findIdx?_eq_some_iff_getElem.mp hidx
        omega
      rw [ih _ _ (fun k hk => hU k (by simp [hk])) hirest (by simp [hlen]) gi]
      exact memAt_set_append_iff i j groups g0 hij hg0 gi

theorem assignParts_unfilled_mem (parts : List PartInfo) (i : ℕ) :
    ∀ (U : List ℕ) (groups : List (List ℕ)) (bboxes : List Rect),
      (∀ j ∈ U, ¬ (parts.getD j default).filled) → U.Nodup → i ∈ U →
      (∀ g ∈ groups, i ∉ g) → groups.length = bboxes.length →
      ∀ gi, memAt i (assignParts parts U (groups, bboxes)).1 gi ↔
        bboxes.findIdx?
          (fun bb => decide (containsTest bb (parts.getD i default).bbox)) = some gi := by
  intro U
  induction U with
  | nil => intro groups bboxes _ _ hi; simp at hi
  | cons j rest ih =>
    intro groups bboxes hU hnd hi hacc hlen gi
    have hnd' : rest.Nodup := (List.nodup_cons.mp hnd).2
    rw [assignParts, if_neg (hU j (by simp))]
    by_cases hji : j = i
    · subst hji
      have hjrest : j ∉ rest := (List.nodup_cons.mp hnd).1
      rcases hidx : bboxes.findIdx?
          (fun group_bbox => decide (containsTest group_bbox (parts.getD j default).bbox)) with
        _ | g0
      · rw [assignParts_memAt_stable parts j rest _ _
          (fun k hk => hU k (by simp [hk])) hjrest hlen gi]
        constructor
        · rintro ⟨g, hg, hmem⟩
          exact absurd hmem (hacc g (by
            rcases List.getElem?_eq_some_iff.mp hg with ⟨hlt, hval⟩
            rw [← hval]
            exact List.getElem_mem hlt))
        · intro h
          simp at h
      · have hg0 : g0 < groups.length := by
          obtain ⟨h, _, _⟩ := List.findIdx?_eq_some_iff_getElem.mp hidx
          omega
        rw [assignParts_memAt_stable parts j rest _ _
          (fun k hk => hU k (by simp [hk])) hjrest (by simp [hlen]) gi]
        constructor
        · rintro ⟨g, hg, hmem⟩
          by_cases hgi : g0 = gi
          · rw [hgi]
          · rw [List.getElem?_set_ne hgi] at hg
            exact absurd hmem (hacc g (by
              rcases List.getElem?_eq_some_iff.mp hg with ⟨hlt, hval⟩
              rw [← hval]
              exact List.getElem_mem hlt))
        · intro h
          simp only [Option.some.injEq] at h
          subst h
          refine ⟨groups.getD g0 [] ++ [j], ?_, ?_⟩
          · exact List.getElem?_set_self hg0
          · simp
    · have hi' : i ∈ rest := by
        rcases List.mem_cons.mp hi with h | h
        · exact absurd h.symm hji
        · exact h
      rcases hidx : bboxes.findIdx?
          (fun group_bbox => decide (containsTest group_bbox (parts.getD j default).bbox)) with
        _ | g0
      · exact ih _ _ (fun k hk => hU k (by simp [hk])) hnd' hi' hacc hlen gi
      · refine ih _ _ (fun k hk => hU k (by simp [hk])) hnd' hi' ?_ (by simp [hlen]) gi
        intro g hg
        rcases List.mem_or_eq_of_mem_set hg with h | h
        · exact hacc g h
        · subst h
          intro hmem
          rcases List.mem_append.mp hmem with h2 | h2
          · exact not_mem_getD_of_not_mem groups g0 i hacc h2
          · simp only [List.mem_singleton] at h2
            exact hji h2.symm

theorem assignParts_unfilled_heads (parts : List PartInfo) :
    ∀ (U : List ℕ) (groups : List (List ℕ)) (bboxes : List Rect),
      (∀ j ∈ U, ¬ (parts.getD j default).filled) →
      (∀ g ∈ groups, g ≠ []) → groups.length = bboxes.length →
      ∀ (gi : ℕ) (g' : List ℕ), (assignParts parts U (groups, bboxes)).1[gi]? = some g' →
        ∃ g, groups[gi]? = some g ∧ g'.head? = g.head? := by
  intro U
  induction U with
  | nil =>
    intro groups bboxes _ _ _ gi g' hg'
    exact ⟨g', hg', rfl⟩
  | cons j rest ih =>
    intro groups bboxes hU hne hlen gi g' hg'
    rw [assignParts, if_neg (hU j (by simp))] at hg'
    rcases hidx : bboxes.findIdx?
        (fun group_bbox => decide (containsTest group_bbox (parts.getD j default).bbox)) with
      _ | g0
    · rw [hidx] at hg'
      exact ih _ _ (fun k hk => hU k (by simp [hk])) hne hlen gi g' hg'
    · rw [hidx] at hg'
      have hg0 : g0 < groups.length := by
        obtain ⟨h, _, _⟩ := List.findIdx?_eq_some_iff_getElem.mp hidx
        omega
      have hne' : ∀ g ∈ groups.set g0 (groups.getD g0 [] ++ [j]), g ≠ [] := by
        intro g hg
        rcases List.mem_or_eq_of_mem_set hg with h | h
        · exact hne g h
        · subst h
          simp
      obtain ⟨g1, hg1, hhead⟩ := ih _ _ (fun k hk => hU k (by simp [hk])) hne'
        (by simp [hlen]) gi g' hg'
      by_cases hgi : g0 = gi
      · subst hgi
        rw [List.getElem?_set_self hg0] at hg1
        simp only [Option.some.injEq] at hg1
        subst hg1
        refine ⟨groups[g0], List.getElem?_eq_getElem hg0, ?_⟩
        rw [hhead]
        have hne0 : groups[g0] ≠ [] := hne _ (List.getElem_mem hg0)
        obtain ⟨a, t, hat⟩ := List.exists_cons_of_ne_nil hne0
        rw [List.getD_eq_getElem?_getD, List.getElem?_eq_getElem hg0]
        simp [hat]
      · rw [List.getElem?_set_ne hgi] at hg1
        exact ⟨g1, hg1, hhead⟩

theorem keyLe_total (a b : ℤ × ℝ) : keyLe a b ∨ keyLe b a := by
  rcases lt_trichotomy a.1 b.1 with h | h | h
  · exact Or.inl (Or.inl h)
  · rcases le_total a.2 b.2 with h2 | h2
    · exact Or.inl (Or.inr ⟨h, h2⟩)
    · exact Or.inr (Or.inr ⟨h.symm, h2⟩)
  · exact Or.inr (Or.inl h)

theorem keyLe_trans (a b c : ℤ × ℝ) : keyLe a b → keyLe b c → keyLe a c := by
  rintro (h1 | ⟨h1, h1'⟩) (h2 | ⟨h2, h2'⟩)
  · exact Or.inl (h1.trans h2)
  · exact Or.inl (h2 ▸ h1)
  · exact Or.inl (h1 ▸ h2)
  · exact Or.inr ⟨h1.trans h2, h1'.trans h2'⟩

theorem orderedIndices_sorted (parts : List PartInfo) :
    (orderedIndices parts).Sorted
      (fun i j => keyLe (partKey (parts.getD i default)) (partKey (parts.getD j default))) := by
  haveI : IsTotal ℕ
      (fun i j => keyLe (partKey (parts.getD i default)) (partKey (parts.getD j default))) :=
    ⟨fun a b => keyLe_total _ _⟩
  haveI : IsTrans ℕ
      (fun i j => keyLe (partKey (parts.getD i default)) (partKey (parts.getD j default))) :=
    ⟨fun a b c => keyLe_trans _ _ _⟩
  exact List.sorted_insertionSort _ _

theorem orderedIndices_perm (parts : List PartInfo) :
    (orderedIndices parts).Perm (List.range parts.length) :=
  List.perm_insertionSort _ _

theorem orderedIndices_filled_first (parts : List PartInfo) :
    (orderedIndices parts).Pairwise
      (fun i j => ¬ (parts.getD i default).filled → ¬ (parts.getD j default).filled) := by
  refine (orderedIndices_sorted parts).imp ?_
  intro i j hle hfi hfj
  rw [Bool.not_eq_true] at hfi
  unfold keyLe partKey at hle
  rw [hfi, hfj] at hle
  simp at hle

theorem filled_prefix_decomp (parts : List PartInfo) :
    ∀ L : List ℕ,
      L.Pairwise (fun i j => ¬ (parts.getD i default).filled → ¬ (parts.getD j default).filled) →
      ∃ F U, L = F ++ U ∧ (∀ j ∈ F, (parts.getD j default).filled) ∧
        (∀ j ∈ U, ¬ (parts.getD j default).filled) := by
  intro L
  induction L with
  | nil => intro _; exact ⟨[], [], rfl, by simp, by simp⟩
  | cons j rest ih =>
    intro hp
    rw [List.pairwise_cons] at hp
    obtain ⟨hj, hrest⟩ := hp
    by_cases hf : (parts.getD j default).filled
    · obtain ⟨F, U, hFU, hFfilled, hUunfilled⟩ := ih hrest
      exact ⟨j :: F, U, by simp [hFU], by
        intro k hk
        rcases List.mem_cons.mp hk with h | h
        · exact h ▸ hf
        · exact hFfilled k h, hUunfilled⟩
    · refine ⟨[], j :: rest, by simp, by simp, ?_⟩
      intro k hk
      rcases List.mem_cons.mp hk with h | h
      · exact h ▸ hf
      · exact hj k h hf

/-- C4 amended: the `group_parts` grouping core processes subpath indices in
ascending key order `(−filled, bbox area)`; every filled subpath starts
exactly one group, recording its bounding box; every unfilled subpath lands
in at most one group, and only in the first group whose recorded box passes
the source's `intersect == bbox` test against its own box; an unfilled
subpath passing no recorded box's test lands in no group.  For boxes with
nonempty interior that test is exactly the claim's "fully contains", but
kurbo's clamping `intersect` also passes degenerate boxes lying outside the
group box (see the counterexample), so the claim's containment policy does
not hold in general. -/
theorem group_parts_core_spec (parts : List PartInfo) :
    ((orderedIndices parts).Sorted
        (fun i j => keyLe (partKey (parts.getD i default)) (partKey (parts.getD j default)))) ∧
      (∀ i < parts.length, (parts.getD i default).filled →
        (group_parts_core parts).1.countP (fun g => decide (i ∈ g)) = 1) ∧
      (∀ i < parts.length, ¬ (parts.getD i default).filled →
        (group_parts_core parts).1.countP (fun g => decide (i ∈ g)) ≤ 1) ∧
      (∀ i < parts.length, ¬ (parts.getD i default).filled →
        ∀ (gi : ℕ) (g : List ℕ), (group_parts_core parts).1[gi]? = some g → i ∈ g →
          ∃ bb, (group_parts_core parts).2[gi]? = some bb ∧
            containsTest bb (parts.getD i default).bbox ∧
            ∀ gj < gi, ∀ bb', (group_parts_core parts).2[gj]? = some bb' →
              ¬ containsTest bb' (parts.getD i default).bbox) ∧
      (∀ i < parts.length, ¬ (parts.getD i default).filled →
        (∀ bb ∈ (group_parts_core parts).2, ¬ containsTest bb (parts.getD i default).bbox) →
        ∀ g ∈ (group_parts_core parts).1, i ∉ g) ∧
      (∀ (gi : ℕ) (g : List ℕ), (group_parts_core parts).1[gi]? = some g →
        ∃ j, g.head? = some j ∧ (parts.getD j default).filled ∧
          (group_parts_core parts).2[gi]? = some (parts.getD j default).bbox) ∧
      (∀ g b : Rect, b.proper → (containsTest g b ↔ g.containsRect b)) := by
  obtain ⟨F, U, hFU, hFfilled, hUunfilled⟩ :=
    filled_prefix_decomp parts (orderedIndices parts) (orderedIndices_filled_first parts)
  have hnodup : (orderedIndices parts).Nodup :=
    (orderedIndices_perm parts).nodup_iff.mpr (List.nodup_range _)
  have hmem_iff : ∀ i, i ∈ orderedIndices parts ↔ i < parts.length := by
    intro i
    rw [(orderedIndices_perm parts).mem_iff, List.mem_range]
  have hsplit : group_parts_core parts =
      assignParts parts U (F.map (fun i => [i]),
        F.map (fun i => (parts.getD i default).bbox)) := by
    rw [group_parts_core, hFU, assignParts_append,
      assignParts_all_filled parts F [] [] hFfilled]
    simp
  have hlen1 : (F.map (fun i => ([i] : List ℕ))).length =
      (F.map (fun i => (parts.getD i default).bbox)).length := by simp
  have hsnd : (group_parts_core parts).2 = F.map (fun i => (parts.getD i default).bbox) := by
    rw [hsplit]
    exact assignParts_all_unfilled_snd parts U _ _ hUunfilled
  have hUnodup : U.Nodup := by
    rw [hFU] at hnodup
    exact hnodup.of_append_right
  have hmemU : ∀ i < parts.length, ¬ (parts.getD i default).filled → i ∈ U := by
    intro i hi hf
    have : i ∈ orderedIndices parts := (hmem_iff i).mpr hi
    rw [hFU] at this
    rcases List.mem_append.mp this with h | h
    · exact absurd (hFfilled i h) hf
    · exact h
  have haccF : ∀ i, ¬ (parts.getD i default).filled →
      ∀ g ∈ F.map (fun i => ([i] : List ℕ)), i ∉ g := by
    intro i hf g hg
    rcases List.mem_map.mp hg with ⟨j, hj, rfl⟩
    intro hm
    simp only [List.mem_singleton] at hm
    subst hm
    exact hf (hFfilled i hj)
  refine ⟨orderedIndices_sorted parts, ?_, ?_, ?_, ?_, ?_, ?_⟩
  · intro i hi hf
    rw [group_parts_core]
    exact assignParts_countP_filled parts i (orderedIndices parts) [] [] hnodup
      ((hmem_iff i).mpr hi) hf (by simp) rfl
  · intro i hi hf
    rw [group_parts_core]
    exact assignParts_countP_unfilled parts i (orderedIndices parts) [] [] hnodup hf
      (by simp) rfl
  · intro i hi hf gi g hgi hmem
    have hmemAt : memAt i (group_parts_core parts).1 gi := ⟨g, hgi, hmem⟩
    rw [hsplit] at hmemAt
    have hfind := (assignParts_unfilled_mem parts i U _ _ hUunfilled hUnodup
      (hmemU i hi hf) (haccF i hf) hlen1 gi).mp hmemAt
    obtain ⟨hgilt, htest, hfirst⟩ := List.findIdx?_eq_some_iff_getElem.mp hfind
    simp only [decide_eq_true_eq] at htest
    have hgiltF : gi < F.length := by simpa using hgilt
    refine ⟨(parts.getD (F[gi]) default).bbox, ?_, ?_, ?_⟩
    · rw [hsnd]
      simp [List.getElem?_eq_getElem hgiltF]
    · simpa using htest
    · intro gj hgj bb' hbb'
      have hgjlt : gj < F.length := by omega
      have hbb2 : bb' = (parts.getD (F[gj]) default).bbox := by
        rw [hsnd, List.getElem?_map, List.getElem?_eq_getElem hgjlt] at hbb'
        simpa using hbb'.symm
      subst hbb2
      have hnt := hfirst gj hgj
      simp only [decide_eq_true_eq] at hnt
      intro hc
      apply hnt
      simpa using hc
  · intro i hi hf hnone g hg hmem
    obtain ⟨gi, hgi⟩ := List.mem_iff_getElem?.mp hg
    have hmemAt : memAt i (group_parts_core parts).1 gi := ⟨g, hgi, hmem⟩
    rw [hsplit] at hmemAt
    have hfind := (assignParts_unfilled_mem parts i U _ _ hUunfilled hUnodup
      (hmemU i hi hf) (haccF i hf) hlen1 gi).mp hmemAt
    obtain ⟨hgilt, htest, _⟩ := List.findIdx?_eq_some_iff_getElem.mp hfind
    simp only [decide_eq_true_eq] at htest
    have hgiltF : gi < F.length := by simpa using hgilt
    have hbbmem : (parts.getD (F[gi]) default).bbox ∈ (group_parts_core parts).2 := by
      rw [hsnd]
      exact List.mem_map.mpr ⟨F[gi], List.getElem_mem hgiltF, rfl⟩
    apply hnone _ hbbmem
    simpa using htest
  · intro gi g hgi
    rw [hsplit] at hgi
    obtain ⟨g1, hg1, hhead⟩ := assignParts_unfilled_heads parts U _ _ hUunfilled
      (by
        intro g' hg'
        rcases List.mem_map.mp hg' with ⟨j, hj, rfl⟩
        simp)
      hlen1 gi g hgi
    rcases List.getElem?_eq_some_iff.mp hg1 with ⟨hlt, hval⟩
    rw [List.length_map] at hlt
    have : g1 = [F[gi]] := by
      rw [List.getElem_map] at hval
      exact hval.symm
    subst this
    refine ⟨F[gi], by rw [hhead]; rfl, hFfilled _ (List.getElem_mem hlt), ?_⟩
    rw [hsnd, List.getElem?_map, List.getElem?_eq_getElem hlt]
    rfl
  · exact fun g b hb => containsTest_iff_containsRect g b hb

/-- A filled subpath with box (0,0)-(1,1) and an unfilled subpath with the
degenerate point box (2,2)-(2,2), which lies outside the filled box. -/
def cdparts : List PartInfo := [⟨true, ⟨0, 0, 1, 1⟩⟩, ⟨false, ⟨2, 2, 2, 2⟩⟩]

/-- C4 counterexample: kurbo's clamping `intersect` makes the source's
`intersect == bbox` test pass for the degenerate box (2,2)-(2,2) against
the recorded group box (0,0)-(1,1) even though that box does not contain
it, so the unfilled subpath is assigned to the group instead of being
dropped — against the claimed "fully contains" policy. -/
theorem group_parts_degenerate_assigned :
    ¬ (⟨0, 0, 1, 1⟩ : Rect).containsRect ⟨2, 2, 2, 2⟩ ∧
      (group_parts_core cdparts).1 = [[0, 1]] ∧
      (group_parts_core cdparts).2 = [⟨0, 0, 1, 1⟩] := by
  have htest : containsTest ⟨0, 0, 1, 1⟩ ⟨2, 2, 2, 2⟩ := by
    unfold containsTest Rect.intersect
    norm_num
  have hle : keyLe (partKey (cdparts.getD 0 default)) (partKey (cdparts.getD 1 default)) := by
    left
    norm_num [cdparts, partKey, List.getD_cons_zero, List.getD_cons_succ]
  have hord : orderedIndices cdparts = [0, 1] := by
    rw [orderedIndices]
    have hr : List.range cdparts.length = [0, 1] := rfl
    rw [hr]
    simp only [List.insertionSort, List.orderedInsert]
    rw [if_pos hle]
  have hfind : ([(⟨0, 0, 1, 1⟩ : Rect)]).findIdx?
      (fun group_bbox => decide (containsTest group_bbox (cdparts.getD 1 default).bbox)) =
      some 0 := by
    apply List.findIdx?_eq_some_iff_getElem.mpr
    refine ⟨by norm_num, ?_, ?_⟩
    · simpa using
        decide_eq_true (show containsTest ⟨0, 0, 1, 1⟩ (cdparts.getD 1 default).bbox from htest)
    · intro j hj
      exact absurd hj (Nat.not_lt_zero j)
  have hcomp : group_parts_core cdparts = ([[0, 1]], [⟨0, 0, 1, 1⟩]) := by
    rw [group_parts_core, hord, assignParts]
    rw [if_pos (show (cdparts.getD 0 default).filled = true from rfl)]
    show assignParts cdparts [1] ([[0]], [⟨0, 0, 1, 1⟩]) = ([[0, 1]], [⟨0, 0, 1, 1⟩])
    rw [assignParts]
    rw [if_neg (by rw [show (cdparts.getD 1 default).filled = false from rfl]; simp), hfind]
    simp only []
    show assignParts cdparts [] ([[0, 1]], [⟨0, 0, 1, 1⟩]) = ([[0, 1]], [⟨0, 0, 1, 1⟩])
    rw [assignParts]
  refine ⟨?_, by rw [hcomp], by rw [hcomp]⟩
  intro h
  obtain ⟨-, -, h3, -⟩ := h
  norm_num at h3

/-! ## lib.rs / lottie.rs : paths and Lottie lowering -/

/-- kurbo `PathEl` (external library). -/
inductive PathEl where
  | moveTo (p : Pt)
  | lineTo (p : Pt)
  | quadTo (c p : Pt)
  | curveTo (c1 c2 p : Pt)
  | closePath

instance : Inhabited PathEl := ⟨.closePath⟩

/-- kurbo `BezPath` (external library): its element list. -/
abbrev BezPath := List PathEl

/-- `path_commands` (lib.rs, lines 165-176): the path-operation kind
character of each element, in order (the source collects them into a
`String`; this is that string's character sequence). -/
def path_commands (bez : BezPath) : List Char :=
  bez.map (fun e =>
    match e with
    | .closePath => 'Z'
    | .curveTo _ _ _ => 'C'
    | .lineTo _ => 'L'
    | .moveTo _ => 'M'
    | .quadTo _ _ => 'Q')

/-- The split loop of `Keyframe::<BezPath>::subpaths` (ir.rs, lines 576-592)
as structural recursion: `acc` is the pending slice
`elements[last_start..i]`.  A slice is pushed whenever the next `MoveTo` is
met; the final slice `elements[last_start..]` is pushed exactly when
`last_start < elements.len() - 1`, i.e. when it has at least two elements. -/
def subpathsGo : List PathEl → List PathEl → List (List PathEl)
  | acc, [] => if 2 ≤ acc.length then [acc] else []
  | acc, e :: rest =>
      match e with
      | .moveTo p => acc :: subpathsGo [.moveTo p] rest
      | _ => subpathsGo (acc ++ [e]) rest

/-- `Keyframe::<BezPath>::subpaths` (ir.rs, lines 576-592). -/
def subpathsOf (bez : BezPath) : List BezPath :=
  match bez with
  | [] => []
  | e :: rest => subpathsGo [e] rest

/-- `LottieError` (error.rs). -/
inductive LottieError where
  | incompatiblePaths (k : Keyframed BezPath)

/-- Lottie lowering outcomes: `Result<α, LottieError>` plus the aborting
outcome for panics. -/
abbrev LRes := PRes LottieError

/-- bodymovin `ControlPoint2d`. -/
structure ControlPoint2d where
  x : ℝ
  y : ℝ

/-- bodymovin `Bezier2d`. -/
structure Bezier2d where
  in_value : ControlPoint2d
  out_value : ControlPoint2d

/-- bodymovin `BezierEase::_2D`. -/
inductive BezierEase where
  | twoD (b : Bezier2d)

/-- bodymovin `ShapeValue`: vertices with relative in/out control handles
and a closed flag (the fields this code uses). -/
structure ShapeValue where
  vertices : List Pt
  in_point : List Pt
  out_point : List Pt
  closed : Option Bool

/-- bodymovin `ShapeKeyframe` (the fields this code sets). -/
structure ShapeKeyframe where
  start_time : ℝ
  start_value : Option (List ShapeValue)
  bezier : Option BezierEase

/-- The value of a bodymovin shape `Property`: fixed or animated. -/
inductive ShapeVerticesValue where
  | fixed (v : ShapeValue)
  | animated (keyframes : List ShapeKeyframe)

/-- bodymovin `SubPath` (the fields this code sets: the `animated` flag and
the vertices value; the `direction` flag, computed via the external kurbo
signed area, is not modelled — no claim concerns it). -/
structure SubPath where
  vertices_animated : ℤ
  vertices : ShapeVerticesValue

noncomputable def ptAdd (a b : Pt) : Pt := (a.1 + b.1, a.2 + b.2)

noncomputable def ptSub (a b : Pt) : Pt := (a.1 - b.1, a.2 - b.2)

/-- `Thirds::one_third` (lottie.rs). -/
noncomputable def one_third (p : Pt) : Pt := (p.1 / 3, p.2 / 3)

/-- `Thirds::two_thirds` (lottie.rs). -/
noncomputable def two_thirds (p : Pt) : Pt := (p.1 * 2 / 3, p.2 * 2 / 3)

/-- `add_cubic` (lottie.rs, lines 233-259): append a cubic with absolute
coordinates to a shape value (handles are stored relative).  On an empty
vertex list the source's `let i = shape.vertices.len() - 1` underflows and
the `out_point[i]` store panics (in release, `i` wraps to `usize::MAX` and
the index is out of bounds): abort.  Otherwise `i = len - 1` and the two
handle stores land at `i` and `i + 1`. -/
noncomputable def add_cubic (shape : ShapeValue) (c0 c1 endp : Pt) : LRes ShapeValue :=
  if shape.vertices.isEmpty then .aborts
  else
    .ok { vertices := shape.vertices ++ [endp]
          in_point := (shape.in_point ++ [((0 : ℝ), (0 : ℝ))]).set
            (shape.vertices.length - 1 + 1) (ptSub c1 endp)
          out_point := (shape.out_point ++ [((0 : ℝ), (0 : ℝ))]).set
            (shape.vertices.length - 1)
            (ptSub c0 (shape.vertices.getLast?.getD (0, 0)))
          closed := shape.closed }

/-- The element loop of `create_shapevalue` (lottie.rs, lines 279-300); the
`assert!` against a second `MoveTo` aborts. -/
noncomputable def create_shapevalue_go : ShapeValue → List PathEl → LRes ShapeValue
  | value, [] => .ok value
  | value, el :: rest =>
      let last_on : Pt := value.vertices.getLast?.getD (0, 0)
      match el with
      | .moveTo p =>
          if value.vertices.isEmpty then
            create_shapevalue_go
              { vertices := value.vertices ++ [p]
                in_point := value.in_point ++ [(0, 0)]
                out_point := value.out_point ++ [(0, 0)]
                closed := value.closed } rest
          else .aborts
      | .lineTo p =>
          match add_cubic value last_on p p with
          | .ok v => create_shapevalue_go v rest
          | .err e => .err e
          | .aborts => .aborts
      | .quadTo control endp =>
          match add_cubic value (ptAdd (one_third last_on) (two_thirds control))
              (ptAdd (two_thirds control) (one_third endp)) endp with
          | .ok v => create_shapevalue_go v rest
          | .err e => .err e
          | .aborts => .aborts
      | .curveTo c0 c1 endp =>
          match add_cubic value c0 c1 endp with
          | .ok v => create_shapevalue_go v rest
          | .err e => .err e
          | .aborts => .aborts
      | .closePath => create_shapevalue_go { value with closed := some true } rest

/-- `create_shapevalue` (lottie.rs, lines 279-308): run the element loop from
the default `ShapeValue`, then default `closed` to first-equals-last vertex
when no `ClosePath` set it. -/
noncomputable def fixupClosed (value : ShapeValue) : ShapeValue :=
  if value.closed = none then
    { value with closed := some (decide
        (value.vertices.head?.getD (0, 0) = value.vertices.getLast?.getD (0, 0))) }
  else value

noncomputable def create_shapevalue (subpath : BezPath) : LRes ShapeValue :=
  match create_shapevalue_go ⟨[], [], [], none⟩ subpath with
  | .ok value => .ok (fixupClosed value)
  | .err e => .err e
  | .aborts => .aborts

/-- `create_subpath` (lottie.rs, lines 261-277): a static subpath with a
fixed vertices property.  The `direction` field is not modelled. -/
noncomputable def create_subpath (subpath : BezPath) : LRes SubPath :=
  match create_shapevalue subpath with
  | .ok v => .ok ⟨0, .fixed v⟩
  | .err e => .err e
  | .aborts => .aborts

/-- `collect::<Result<Vec<_>, _>>` over this code's fallible maps:
fail-fast map. -/
def presMapM {ε α β : Type} (f : α → PRes ε β) : List α → PRes ε (List β)
  | [] => .ok []
  | x :: xs =>
      match f x with
      | .ok y =>
          match presMapM f xs with
          | .ok ys => .ok (y :: ys)
          | .err e => .err e
          | .aborts => .aborts
      | .err e => .err e
      | .aborts => .aborts

/-- `DEFAULT_EASE` (ir.rs, lines 379-384). -/
noncomputable def DEFAULT_EASE : CubicBez := ⟨(0, 0), (0.4, 0), (0.6, 1), (1, 1)⟩

/-- The `MotionValue` trait (ir.rs, lines 594-653).  Both operations return
in `LRes` because some instances hit `todo!()`. -/
class MotionValue (T : Type) where
  reference_value : Keyframe T → ℕ → LRes ℝ
  scaled : Keyframe T → ℝ → ℕ → LRes (Keyframe T)

/-- `MotionValue for Keyframe<f64>` (ir.rs, lines 599-609). -/
instance : MotionValue ℝ where
  reference_value kf _ := .ok kf.value
  scaled kf reference _ := .ok ⟨kf.frame, reference⟩

/-- `MotionValue for Keyframe<(f64, f64)>` and `Keyframe<Vec2>` (ir.rs,
lines 611-643): the two source impls compute identically on the shared model
type `ℝ × ℝ`; `todo!("support 2d values")` aborts. -/
noncomputable instance : MotionValue (ℝ × ℝ) where
  reference_value kf _ :=
    if kf.value.1 = kf.value.2 then .ok kf.value.1 else .aborts
  scaled kf reference _ :=
    .ok ⟨kf.frame, (reference, kf.value.2 * (reference / kf.value.1))⟩

/-- `MotionValue for Keyframe<BezPath>` (ir.rs, lines 645-653): the scaling
of a shape morph is `todo!()` and aborts. -/
instance : MotionValue BezPath where
  reference_value _ i := .ok ((i : ℝ) * 100)
  scaled _ _ _ := .aborts

/-- `Motion<T>` (ir.rs, lines 386-389). -/
structure Motion (T : Type) where
  keyframes : List (Keyframe T)
  ease : List CubicBez

/-- The inner cubic loop of `Motion::new` (ir.rs, lines 413-419): each
cubic's endpoint becomes a new keyframe and the cubic its easing. -/
noncomputable def motionCubics {T : Type} [Inhabited T] [MotionValue T]
    (kf2 : Keyframe T) (i : ℕ) :
    List CubicBez → List (Keyframe T) → List CubicBez →
      LRes (List (Keyframe T) × List CubicBez)
  | [], kfs, ease => .ok (kfs, ease)
  | cubic :: rest, kfs, ease =>
      let frame := (cubic.p3.1 - cubic.p0.1) + (kfs.getLast?.getD ⟨0, default⟩).frame
      match MotionValue.scaled kf2 cubic.p3.2 i with
      | .ok sc => motionCubics kf2 i rest (kfs ++ [⟨frame, sc.value⟩]) (ease ++ [cubic])
      | .err e => .err e
      | .aborts => .aborts

/-- The window loop of `Motion::new` (ir.rs, lines 401-420) over consecutive
keyframe pairs; `cubic_approximation(...).expect("Cubics!")` aborts on
error. -/
noncomputable def motionWindows {T : Type} [Inhabited T] [MotionValue T]
    (frame_rate : ℝ) (value_type : AnimatedValueType) (spring : Spring) :
    List (Keyframe T) → ℕ → List (Keyframe T) → List CubicBez →
      LRes (List (Keyframe T) × List CubicBez)
  | kf1 :: kf2 :: rest, i, kfs, ease =>
      match MotionValue.reference_value kf1 i with
      | .ok v1 =>
          match MotionValue.reference_value kf2 (i + 1) with
          | .ok v2 =>
              match cubic_approximation frame_rate (AnimatedValue.new v1 v2 value_type)
                  spring with
              | .ok cubics =>
                  match motionCubics kf2 i cubics kfs ease with
                  | .ok acc =>
                      motionWindows frame_rate value_type spring (kf2 :: rest) (i + 1)
                        acc.1 acc.2
                  | .err e => .err e
                  | .aborts => .aborts
              | .error _ => .aborts
          | .err e => .err e
          | .aborts => .aborts
      | .err e => .err e
      | .aborts => .aborts
  | _, _, kfs, ease => .ok (kfs, ease)

/-- `Motion::new` (ir.rs, lines 396-426): with a spring and more than one
keyframe, expand every window through the spring; otherwise pass the
keyframes through with no easing list. -/
noncomputable def Motion.new {T : Type} [Inhabited T] [MotionValue T]
    (source : Keyframed T) (frame_rate : ℝ) (value_type : AnimatedValueType) :
    LRes (Motion T) :=
  match source.spring with
  | some spring =>
      if 1 < source.len then
        match motionWindows frame_rate value_type spring source.keyframes 0
            [source.keyframes.headD ⟨0, default⟩] [DEFAULT_EASE] with
        | .ok acc => .ok ⟨acc.1, acc.2⟩
        | .err e => .err e
        | .aborts => .aborts
      else .ok ⟨source.keyframes, []⟩
  | none => .ok ⟨source.keyframes, []⟩

/-- `Motion::iter` via `MotionIter` (ir.rs, lines 428-463): each keyframe
with its ease, defaulting to `DEFAULT_EASE` beyond the ease list. -/
noncomputable def Motion.pairs {T : Type} (m : Motion T) : List (CubicBez × Keyframe T) :=
  m.keyframes.enum.map (fun p => (m.ease.getD p.1 DEFAULT_EASE, p.2))

/-- `to_lottie_ease` (lottie.rs, lines 147-163): normalize the cubic to the
unit square (translate by −p0, scale by 1/(p3−p0) per axis), then report p2
as the incoming and p1 as the outgoing control point. -/
noncomputable def to_lottie_ease (bez : CubicBez) : BezierEase :=
  let ease : CubicBez :=
    if bez.p0 = ((0, 0) : Pt) ∧ bez.p3 = ((1, 1) : Pt) then bez
    else
      let t : Pt → Pt := fun p =>
        ((p.1 - bez.p0.1) * (1 / (bez.p3.1 - bez.p0.1)),
          (p.2 - bez.p0.2) * (1 / (bez.p3.2 - bez.p0.2)))
      ⟨t bez.p0, t bez.p1, t bez.p2, t bez.p3⟩
  .twoD ⟨⟨ease.p2.1, ease.p2.2⟩, ⟨ease.p1.1, ease.p1.2⟩⟩

/-- The body of the keyframe loop of `to_lottie_subpath` (lottie.rs, lines
203-211): one `ShapeKeyframe` per `(ease, keyframe)` motion pair. -/
noncomputable def shapeKeyframeOf (pair : CubicBez × Keyframe BezPath) :
    LRes ShapeKeyframe :=
  match presMapM create_shapevalue (subpathsOf pair.2.value) with
  | .ok svs => .ok (⟨pair.2.frame, some svs, some (to_lottie_ease pair.1)⟩ : ShapeKeyframe)
  | .err e => .err e
  | .aborts => .aborts

/-- `to_lottie_subpath` (lottie.rs, lines 169-215). -/
noncomputable def to_lottie_subpath (path : Keyframed BezPath) (frame_rate : ℝ) :
    LRes (List SubPath) :=
  if path.len < 2 then presMapM create_subpath (subpathsOf path.earliest.value)
  else
    if ∀ p ∈ path.keyframes, path_commands path.earliest.value = path_commands p.value then
      if 2 < path.len then .aborts
      else
        match Motion.new path frame_rate .position with
        | .ok motion =>
            match presMapM shapeKeyframeOf motion.pairs with
            | .ok keyframes => .ok [⟨1, .animated keyframes⟩]
            | .err e => .err e
            | .aborts => .aborts
        | .err e => .err e
        | .aborts => .aborts
    else .err (.incompatiblePaths path)

/-- `Keyframed::<BezPath>::for_glyph` (ir.rs, lines 505-535).  The two
`draw(...)` calls render the glyph through the external skrifa library; the
drawn start outline and optional end outline enter as arguments. -/
noncomputable def Keyframed.for_glyph (last_frame : ℝ) (start_path : BezPath)
    (end_path : Option BezPath) : Keyframed BezPath :=
  let result := Keyframed.new 0 start_path (some Spring.expressive_non_spatial)
  match end_path with
  | some p => result.push ⟨last_frame, p⟩
  | none => result

def isMoveTo : PathEl → Bool
  | .moveTo _ => true
  | _ => false

theorem subpathsGo_cons_nonmove (acc rest : List PathEl) (e : PathEl)
    (he : isMoveTo e = false) :
    subpathsGo acc (e :: rest) = subpathsGo (acc ++ [e]) rest := by
  cases e with
  | moveTo p => simp [isMoveTo] at he
  | lineTo p => rfl
  | quadTo c p => rfl
  | curveTo c1 c2 p => rfl
  | closePath => rfl

theorem tail_append_no_move (acc : List PathEl) (e : PathEl)
    (hacc : ∀ x ∈ acc.tail, isMoveTo x = false) (he : isMoveTo e = false) :
    ∀ x ∈ (acc ++ [e]).tail, isMoveTo x = false := by
  intro x hx
  cases acc with
  | nil => simp at hx
  | cons a t =>
    rw [List.cons_append, List.tail_cons] at hx
    rcases List.mem_append.mp hx with h | h
    · exact hacc x h
    · simp only [List.mem_singleton] at h
      subst h
      exact he

theorem subpathsGo_no_later_move :
    ∀ (rest acc : List PathEl), (∀ e ∈ acc.tail, isMoveTo e = false) →
      ∀ s ∈ subpathsGo acc rest, ∀ e ∈ s.tail, isMoveTo e = false := by
  intro rest
  induction rest with
  | nil =>
    intro acc hacc s hs
    rw [subpathsGo] at hs
    split at hs
    · simp only [List.mem_singleton] at hs
      subst hs
      exact hacc
    · simp at hs
  | cons e rest ih =>
    intro acc hacc s hs
    cases he : isMoveTo e with
    | true =>
      cases e with
      | moveTo p =>
        have heq : subpathsGo acc (PathEl.moveTo p :: rest) =
            acc :: subpathsGo [PathEl.moveTo p] rest := rfl
        rw [heq] at hs
        rcases List.mem_cons.mp hs with h | h
        · subst h
          exact hacc
        · exact ih [PathEl.moveTo p] (by simp) s h
      | lineTo p => simp [isMoveTo] at he
      | quadTo c p => simp [isMoveTo] at he
      | curveTo c1 c2 p => simp [isMoveTo] at he
      | closePath => simp [isMoveTo] at he
    | false =>
      rw [subpathsGo_cons_nonmove acc rest e he] at hs
      exact ih (acc ++ [e]) (tail_append_no_move acc e hacc he) s hs

theorem add_cubic_ok (shape : ShapeValue) (c0 c1 endp : Pt)
    (h : shape.vertices ≠ []) :
    ∃ v, add_cubic shape c0 c1 endp = .ok v ∧ v.vertices = shape.vertices ++ [endp] := by
  rw [add_cubic, if_neg (by simpa using h)]
  exact ⟨_, rfl, rfl⟩

theorem add_cubic_no_err (shape : ShapeValue) (c0 c1 endp : Pt) (e : LottieError) :
    add_cubic shape c0 c1 endp ≠ .err e := by
  rw [add_cubic]
  split_ifs <;> simp

theorem create_shapevalue_go_ok :
    ∀ (els : List PathEl) (value : ShapeValue), value.vertices ≠ [] →
      (∀ e ∈ els, isMoveTo e = false) →
      ∃ v, create_shapevalue_go value els = .ok v := by
  intro els
  induction els with
  | nil => intro value _ _; exact ⟨value, rfl⟩
  | cons e rest ih =>
    intro value hne h
    cases e with
    | moveTo p =>
      have hm := h (PathEl.moveTo p) (by simp)
      simp [isMoveTo] at hm
    | lineTo p =>
      obtain ⟨v, hv, hvv⟩ := add_cubic_ok value (value.vertices.getLast?.getD (0, 0)) p p hne
      obtain ⟨w, hw⟩ := ih v (by simp [hvv]) (fun x hx => h x (by simp [hx]))
      refine ⟨w, ?_⟩
      rw [create_shapevalue_go]
      rw [hv]
      exact hw
    | quadTo c p =>
      obtain ⟨v, hv, hvv⟩ := add_cubic_ok value
        (ptAdd (one_third (value.vertices.getLast?.getD (0, 0))) (two_thirds c))
        (ptAdd (two_thirds c) (one_third p)) p hne
      obtain ⟨w, hw⟩ := ih v (by simp [hvv]) (fun x hx => h x (by simp [hx]))
      refine ⟨w, ?_⟩
      rw [create_shapevalue_go]
      rw [hv]
      exact hw
    | curveTo c1 c2 p =>
      obtain ⟨v, hv, hvv⟩ := add_cubic_ok value c1 c2 p hne
      obtain ⟨w, hw⟩ := ih v (by simp [hvv]) (fun x hx => h x (by simp [hx]))
      refine ⟨w, ?_⟩
      rw [create_shapevalue_go]
      rw [hv]
      exact hw
    | closePath =>
      obtain ⟨w, hw⟩ := ih { value with closed := some true } (by simpa using hne)
        (fun x hx => h x (by simp [hx]))
      exact ⟨w, hw⟩

theorem create_shapevalue_ok (s : BezPath)
    (hhead : ∀ e ∈ s.head?, ∃ p, e = PathEl.moveTo p)
    (h : ∀ e ∈ s.tail, isMoveTo e = false) :
    ∃ v, create_shapevalue s = .ok v := by
  have hgo : ∃ v, create_shapevalue_go ⟨[], [], [], none⟩ s = .ok v := by
    cases s with
    | nil => exact ⟨_, rfl⟩
    | cons e rest =>
      obtain ⟨p, rfl⟩ := hhead e (by simp)
      have heq : create_shapevalue_go ⟨[], [], [], none⟩ (PathEl.moveTo p :: rest) =
          create_shapevalue_go ⟨[p], [(0, 0)], [(0, 0)], none⟩ rest := rfl
      rw [heq]
      exact create_shapevalue_go_ok rest _ (by simp) (by simpa using h)
  obtain ⟨v, hv⟩ := hgo
  refine ⟨fixupClosed v, ?_⟩
  unfold create_shapevalue
  rw [hv]

theorem create_shapevalue_go_no_err :
    ∀ (els : List PathEl) (value : ShapeValue) (e : LottieError),
      create_shapevalue_go value els ≠ .err e := by
  intro els
  induction els with
  | nil =>
    intro value e h
    rw [create_shapevalue_go] at h
    cases h
  | cons el rest ih =>
    intro value e h
    cases el with
    | moveTo p =>
      rw [create_shapevalue_go] at h
      split at h
      · exact ih _ e h
      · cases h
    | lineTo p =>
      rw [create_shapevalue_go] at h
      split at h
      next v heq => exact ih _ e h
      next e' heq => exact add_cubic_no_err _ _ _ _ e' heq
      next heq => cases h
    | quadTo c p =>
      rw [create_shapevalue_go] at h
      split at h
      next v heq => exact ih _ e h
      next e' heq => exact add_cubic_no_err _ _ _ _ e' heq
      next heq => cases h
    | curveTo c1 c2 p =>
      rw [create_shapevalue_go] at h
      split at h
      next v heq => exact ih _ e h
      next e' heq => exact add_cubic_no_err _ _ _ _ e' heq
      next heq => cases h
    | closePath =>
      rw [create_shapevalue_go] at h
      exact ih _ e h

theorem create_shapevalue_no_err (s : BezPath) (e : LottieError) :
    create_shapevalue s ≠ .err e := by
  intro h
  unfold create_shapevalue at h
  split at h
  next => cases h
  next e' heq => exact create_shapevalue_go_no_err s _ e' heq
  next => cases h

theorem presMapM_ok {ε α β : Type} (f : α → PRes ε β) :
    ∀ l : List α, (∀ x ∈ l, ∃ y, f x = .ok y) → ∃ ys, presMapM f l = .ok ys := by
  intro l
  induction l with
  | nil => intro _; exact ⟨[], rfl⟩
  | cons x xs ih =>
    intro h
    obtain ⟨y, hy⟩ := h x (by simp)
    obtain ⟨ys, hys⟩ := ih (fun z hz => h z (by simp [hz]))
    exact ⟨y :: ys, by rw [presMapM, hy, hys]⟩

theorem presMapM_no_err {ε α β : Type} (f : α → PRes ε β)
    (hf : ∀ a e, f a ≠ .err e) :
    ∀ (l : List α) (e : ε), presMapM f l ≠ .err e := by
  intro l
  induction l with
  | nil =>
    intro e h
    rw [presMapM] at h
    cases h
  | cons x xs ih =>
    intro e h
    rw [presMapM] at h
    split at h
    next y heq =>
      split at h
      next ys heq2 => cases h
      next e' heq2 => exact ih e' heq2
      next heq2 => cases h
    next e' heq => exact hf x e' heq
    next heq => cases h

theorem subpathsGo_head_move :
    ∀ (rest acc : List PathEl) (q : Pt) (acc' : List PathEl),
      acc = PathEl.moveTo q :: acc' →
      ∀ s ∈ subpathsGo acc rest, ∃ q2 s', s = PathEl.moveTo q2 :: s' := by
  intro rest
  induction rest with
  | nil =>
    intro acc q acc' hacc s hs
    rw [subpathsGo] at hs
    split at hs
    · simp only [List.mem_singleton] at hs
      subst hs
      exact ⟨q, acc', hacc⟩
    · simp at hs
  | cons e rest ih =>
    intro acc q acc' hacc s hs
    cases he : isMoveTo e with
    | true =>
      cases e with
      | moveTo p =>
        have heq : subpathsGo acc (PathEl.moveTo p :: rest) =
            acc :: subpathsGo [PathEl.moveTo p] rest := rfl
        rw [heq] at hs
        rcases List.mem_cons.mp hs with h | h
        · subst h
          exact ⟨q, acc', hacc⟩
        · exact ih [PathEl.moveTo p] p [] rfl s h
      | lineTo p => simp [isMoveTo] at he
      | quadTo c p => simp [isMoveTo] at he
      | curveTo c1 c2 p => simp [isMoveTo] at he
      | closePath => simp [isMoveTo] at he
    | false =>
      rw [subpathsGo_cons_nonmove acc rest e he] at hs
      exact ih (acc ++ [e]) q (acc' ++ [e]) (by rw [hacc]; rfl) s hs

theorem presMapM_create_shapevalue_ok (b : BezPath)
    (hb : ∀ e ∈ b.head?, ∃ p, e = PathEl.moveTo p) :
    ∃ svs, presMapM create_shapevalue (subpathsOf b) = .ok svs := by
  apply presMapM_ok
  intro s hs
  cases b with
  | nil => simp [subpathsOf] at hs
  | cons e rest =>
    obtain ⟨p, rfl⟩ := hb e (by simp)
    apply create_shapevalue_ok
    · intro e2 he2
      obtain ⟨q2, s', rfl⟩ := subpathsGo_head_move rest [PathEl.moveTo p] p [] rfl s hs
      simp only [List.head?_cons, Option.mem_def, Option.some.injEq] at he2
      exact ⟨q2, he2.symm⟩
    · exact subpathsGo_no_later_move rest [PathEl.moveTo p] (by simp) s hs

theorem handwritten_cubic_ok_ne_nil (s : Spring) (t : List CubicBez)
    (h : handwritten_cubic s = .ok t) : t ≠ [] := by
  unfold handwritten_cubic at h
  split_ifs at h
  · injection h with h2
    subst h2
    simp
  · injection h with h2
    subst h2
    simp
  · injection h with h2
    subst h2
    simp

theorem cubic_approximation_ok_ne_nil (fr : ℝ) (a : AnimatedValue) (s : Spring)
    (cubics : List CubicBez) (h : cubic_approximation fr a s = .ok cubics) :
    cubics ≠ [] := by
  rcases h1 : handwritten_cubic s with e | tmpl
  · have hval : cubic_approximation fr a s = .error e := by
      rw [cubic_approximation, h1]
    rw [hval] at h
    simp at h
  · rcases h2 : num_frames fr a s with e | n
    · have hval : cubic_approximation fr a s = .error e := by
        rw [cubic_approximation, h1, h2]
      rw [hval] at h
      simp at h
    · have hval : cubic_approximation fr a s = .ok (tmpl.map (CubicBez.transformBy
          ((n : ℝ) / (tmpl.getLast?.getD default).p3.1)
          ((a.final_value - a.value) / 100) 0 a.value)) := by
        rw [cubic_approximation, h1, h2]
      rw [hval] at h
      simp only [Except.ok.injEq] at h
      rw [← h]
      simp [handwritten_cubic_ok_ne_nil s tmpl h1]

theorem to_lottie_subpath_incompat (path : Keyframed BezPath) (fr : ℝ)
    (hlen : 2 ≤ path.len)
    (hnc : ¬ ∀ p ∈ path.keyframes,
      path_commands path.earliest.value = path_commands p.value) :
    to_lottie_subpath path fr = .err (.incompatiblePaths path) := by
  rw [to_lottie_subpath, if_neg (not_lt.mpr hlen), if_neg hnc]

theorem to_lottie_subpath_gt2 (path : Keyframed BezPath) (fr : ℝ)
    (hlen : 2 < path.len)
    (hc : ∀ p ∈ path.keyframes,
      path_commands path.earliest.value = path_commands p.value) :
    to_lottie_subpath path fr = .aborts := by
  rw [to_lottie_subpath, if_neg (not_lt.mpr (by omega)), if_pos hc, if_pos hlen]

theorem motionWindows_two_bez_aborts (fr : ℝ) (vt : AnimatedValueType) (s : Spring)
    (k0 k1 : Keyframe BezPath) (kfs : List (Keyframe BezPath)) (ease : List CubicBez) :
    motionWindows fr vt s [k0, k1] 0 kfs ease = .aborts := by
  rw [motionWindows]
  have h0 : MotionValue.reference_value (T := BezPath) k0 0 =
      (.ok (((0 : ℕ) : ℝ) * 100) : LRes ℝ) := rfl
  have h1 : MotionValue.reference_value (T := BezPath) k1 (0 + 1) =
      (.ok ((((0 : ℕ) + 1 : ℕ) : ℝ) * 100) : LRes ℝ) := rfl
  rw [h0, h1]
  simp only []
  split
  next cubics heq =>
    have hne := cubic_approximation_ok_ne_nil _ _ _ _ heq
    obtain ⟨c, rest', rfl⟩ := List.exists_cons_of_ne_nil hne
    have hmc : motionCubics k1 0 (c :: rest') kfs ease =
        (.aborts : LRes (List (Keyframe BezPath) × List CubicBez)) := rfl
    split
    next acc heq2 =>
      rw [hmc] at heq2
      cases heq2
    next e heq2 =>
      rw [hmc] at heq2
      cases heq2
    next heq2 => rfl
  next e heq => rfl

theorem Motion_new_two_bez_spring_aborts (k0 k1 : Keyframe BezPath) (s : Spring)
    (fr : ℝ) (vt : AnimatedValueType) :
    Motion.new ⟨[k0, k1], some s⟩ fr vt = .aborts := by
  rw [Motion.new]
  simp only []
  rw [if_pos (by simp [Keyframed.len]), motionWindows_two_bez_aborts]

theorem Motion_new_no_spring {T : Type} [Inhabited T] [MotionValue T]
    (kfs : List (Keyframe T)) (fr : ℝ) (vt : AnimatedValueType) :
    Motion.new ⟨kfs, none⟩ fr vt = .ok ⟨kfs, []⟩ := rfl

theorem Motion_pairs_two {T : Type} (k0 k1 : Keyframe T) :
    Motion.pairs ⟨[k0, k1], []⟩ = [(DEFAULT_EASE, k0), (DEFAULT_EASE, k1)] := by
  simp [Motion.pairs, List.enum, List.enumFrom]

theorem to_lottie_subpath_two_no_spring (p q : BezPath) (f0 f1 fr : ℝ)
    (hp : ∀ e ∈ p.head?, ∃ pt, e = PathEl.moveTo pt)
    (hq : ∀ e ∈ q.head?, ∃ pt, e = PathEl.moveTo pt)
    (hc : path_commands p = path_commands q) :
    ∃ svs0 svs1,
      to_lottie_subpath ⟨[⟨f0, p⟩, ⟨f1, q⟩], none⟩ fr =
        .ok [⟨1, .animated
          [⟨f0, some svs0, some (to_lottie_ease DEFAULT_EASE)⟩,
            ⟨f1, some svs1, some (to_lottie_ease DEFAULT_EASE)⟩]⟩] := by
  obtain ⟨svs0, h0⟩ := presMapM_create_shapevalue_ok p hp
  obtain ⟨svs1, h1⟩ := presMapM_create_shapevalue_ok q hq
  refine ⟨svs0, svs1, ?_⟩
  have hcompat : ∀ x ∈ (⟨[⟨f0, p⟩, ⟨f1, q⟩], none⟩ : Keyframed BezPath).keyframes,
      path_commands (⟨[⟨f0, p⟩, ⟨f1, q⟩], none⟩ : Keyframed BezPath).earliest.value =
        path_commands x.value := by
    intro x hx
    rcases List.mem_cons.mp hx with h | h
    · subst h
      rfl
    · simp only [List.mem_singleton] at h
      subst h
      exact hc
  have hk0 : shapeKeyframeOf (DEFAULT_EASE, ⟨f0, p⟩) =
      .ok (⟨f0, some svs0, some (to_lottie_ease DEFAULT_EASE)⟩ : ShapeKeyframe) := by
    rw [shapeKeyframeOf]
    simp only []
    rw [h0]
  have hk1 : shapeKeyframeOf (DEFAULT_EASE, ⟨f1, q⟩) =
      .ok (⟨f1, some svs1, some (to_lottie_ease DEFAULT_EASE)⟩ : ShapeKeyframe) := by
    rw [shapeKeyframeOf]
    simp only []
    rw [h1]
  rw [to_lottie_subpath, if_neg (by simp [Keyframed.len]), if_pos hcompat,
    if_neg (by simp [Keyframed.len]), Motion_new_no_spring]
  simp only []
  rw [Motion_pairs_two]
  rw [presMapM, hk0]
  simp only []
  rw [presMapM, hk1]
  simp only []
  rw [presMapM]

theorem shapeKeyframeOf_no_err (pair : CubicBez × Keyframe BezPath) (e : LottieError) :
    shapeKeyframeOf pair ≠ .err e := by
  intro h
  rw [shapeKeyframeOf] at h
  split at h
  next svs heq => cases h
  next e' heq =>
    exact presMapM_no_err create_shapevalue (fun a e2 => create_shapevalue_no_err a e2) _ e' heq
  next heq => cases h

theorem to_lottie_subpath_two_no_spring_no_err (p q : BezPath) (f0 f1 fr : ℝ)
    (hc : path_commands p = path_commands q) (e : LottieError) :
    to_lottie_subpath ⟨[⟨f0, p⟩, ⟨f1, q⟩], none⟩ fr ≠ .err e := by
  intro h
  have hcompat : ∀ x ∈ (⟨[⟨f0, p⟩, ⟨f1, q⟩], none⟩ : Keyframed BezPath).keyframes,
      path_commands (⟨[⟨f0, p⟩, ⟨f1, q⟩], none⟩ : Keyframed BezPath).earliest.value =
        path_commands x.value := by
    intro x hx
    rcases List.mem_cons.mp hx with hm | hm
    · subst hm
      rfl
    · simp only [List.mem_singleton] at hm
      subst hm
      exact hc
  rw [to_lottie_subpath, if_neg (by simp [Keyframed.len]), if_pos hcompat,
    if_neg (by simp [Keyframed.len]), Motion_new_no_spring] at h
  simp only [] at h
  split at h
  next keyframes heq => cases h
  next e' heq =>
    exact presMapM_no_err shapeKeyframeOf (fun a e2 => shapeKeyframeOf_no_err a e2) _ e' heq
  next heq => cases h

theorem to_lottie_subpath_two_spring (p q : BezPath) (f0 f1 fr : ℝ) (s : Spring)
    (hc : path_commands p = path_commands q) :
    to_lottie_subpath ⟨[⟨f0, p⟩, ⟨f1, q⟩], some s⟩ fr = .aborts := by
  have hcompat : ∀ x ∈ (⟨[⟨f0, p⟩, ⟨f1, q⟩], some s⟩ : Keyframed BezPath).keyframes,
      path_commands (⟨[⟨f0, p⟩, ⟨f1, q⟩], some s⟩ : Keyframed BezPath).earliest.value =
        path_commands x.value := by
    intro x hx
    rcases List.mem_cons.mp hx with h | h
    · subst h
      rfl
    · simp only [List.mem_singleton] at h
      subst h
      exact hc
  rw [to_lottie_subpath, if_neg (by simp [Keyframed.len]), if_pos hcompat,
    if_neg (by simp [Keyframed.len]), Motion_new_two_bez_spring_aborts]

theorem keyframed_push_append {T : Type} (k : Keyframed T) (kf : Keyframe T)
    (h : ∀ x ∈ k.keyframes, x.frame ≠ kf.frame) :
    k.push kf = ⟨k.keyframes ++ [kf], k.spring⟩ := by
  have hnone : k.keyframes.findIdx? (fun kf' => decide (kf'.frame = kf.frame)) = none := by
    rw [List.findIdx?_eq_none_iff]
    intro x hx
    simp only [decide_eq_false_iff_not]
    exact h x hx
  rw [Keyframed.push, hnone]

theorem for_glyph_some (lf : ℝ) (sp ep : BezPath) (hlf : lf ≠ 0) :
    Keyframed.for_glyph lf sp (some ep) =
      ⟨[⟨0, sp⟩, ⟨lf, ep⟩], some Spring.expressive_non_spatial⟩ := by
  rw [Keyframed.for_glyph]
  rw [keyframed_push_append]
  · rfl
  · intro x hx
    simp only [Keyframed.new, List.mem_singleton] at hx
    subst hx
    simpa using Ne.symm hlf

theorem to_lottie_subpath_compat_no_err (path : Keyframed BezPath) (fr : ℝ)
    (hlen : 1 < path.len)
    (hc : ∀ p ∈ path.keyframes, path_commands path.earliest.value = path_commands p.value)
    (e : LottieError) :
    to_lottie_subpath path fr ≠ .err e := by
  rcases lt_or_le 2 path.len with hgt | hle
  · rw [to_lottie_subpath_gt2 path fr hgt hc]
    simp
  · obtain ⟨kfs, sp⟩ := path
    have h2 : kfs.length = 2 := le_antisymm hle hlen
    obtain ⟨k0, k1, hkf⟩ := List.length_eq_two.mp h2
    subst hkf
    obtain ⟨f0, p⟩ := k0
    obtain ⟨f1, q⟩ := k1
    have hpq : path_commands p = path_commands q := hc ⟨f1, q⟩ (by simp)
    cases sp with
    | some s =>
      rw [to_lottie_subpath_two_spring p q f0 f1 fr s hpq]
      simp
    | none => exact to_lottie_subpath_two_no_spring_no_err p q f0 f1 fr hpq e

/-- C6: for a series with more than one keyframe, lowering fails with
`IncompatiblePaths` (carrying the series) exactly when some keyframe's
path-operation-kind sequence differs from the first keyframe's, and any
error lowering reports is that `IncompatiblePaths` error. -/
theorem to_lottie_subpath_incompatible_iff (path : Keyframed BezPath) (fr : ℝ)
    (hlen : 1 < path.len) :
    (to_lottie_subpath path fr = .err (.incompatiblePaths path) ↔
      ¬ ∀ p ∈ path.keyframes,
        path_commands path.earliest.value = path_commands p.value) ∧
    ∀ e, to_lottie_subpath path fr = .err e → e = .incompatiblePaths path := by
  constructor
  · constructor
    · intro h hcompat
      exact to_lottie_subpath_compat_no_err path fr hlen hcompat _ h
    · intro hnc
      exact to_lottie_subpath_incompat path fr hlen hnc
  · intro e he
    by_cases hcompat : ∀ p ∈ path.keyframes,
        path_commands path.earliest.value = path_commands p.value
    · exact absurd he (to_lottie_subpath_compat_no_err path fr hlen hcompat e)
    · rw [to_lottie_subpath_incompat path fr hlen hcompat] at he
      injection he with h
      exact h.symm

/-- A two-keyframe series whose keyframes have differing
path-operation-kind sequences. -/
def incompatSeries : Keyframed BezPath :=
  ⟨[⟨0, [.moveTo (0, 0)]⟩, ⟨60, [.moveTo (0, 0), .lineTo (1, 1)]⟩], none⟩

/-- Witness for `to_lottie_subpath_incompatible_iff` at a concrete
two-keyframe incompatible series. -/
theorem to_lottie_subpath_incompatible_iff_witness :
    1 < incompatSeries.len ∧
      ((to_lottie_subpath incompatSeries 60 = .err (.incompatiblePaths incompatSeries) ↔
        ¬ ∀ p ∈ incompatSeries.keyframes,
          path_commands incompatSeries.earliest.value = path_commands p.value) ∧
      ∀ e, to_lottie_subpath incompatSeries 60 = .err e →
        e = .incompatiblePaths incompatSeries) :=
  ⟨by norm_num [incompatSeries, Keyframed.len],
    to_lottie_subpath_incompatible_iff incompatSeries 60
      (by norm_num [incompatSeries, Keyframed.len])⟩

/-- C10 amended: for a series with more than two keyframes, lowering aborts
whenever the keyframes are interpolation-compatible, and never returns a
value; but an incompatible such series yields the typed `IncompatiblePaths`
error rather than aborting (see the counterexample). -/
theorem to_lottie_subpath_gt2_no_value (path : Keyframed BezPath) (fr : ℝ)
    (hlen : 2 < path.len) :
    ((∀ p ∈ path.keyframes, path_commands path.earliest.value = path_commands p.value) →
      to_lottie_subpath path fr = .aborts) ∧
    ∀ sps, to_lottie_subpath path fr ≠ .ok sps := by
  refine ⟨to_lottie_subpath_gt2 path fr hlen, ?_⟩
  intro sps h
  by_cases hcompat : ∀ p ∈ path.keyframes,
      path_commands path.earliest.value = path_commands p.value
  · rw [to_lottie_subpath_gt2 path fr hlen hcompat] at h
    cases h
  · rw [to_lottie_subpath_incompat path fr (by omega) hcompat] at h
    cases h

/-- A three-keyframe series whose middle keyframe has a differing
path-operation-kind sequence. -/
def threeKfIncompat : Keyframed BezPath :=
  ⟨[⟨0, [.moveTo (0, 0)]⟩, ⟨30, [.moveTo (0, 0), .lineTo (1, 1)]⟩,
    ⟨60, [.moveTo (0, 0)]⟩], none⟩

/-- C10 counterexample: a three-keyframe series with incompatible paths is
rejected with the typed `IncompatiblePaths` error rather than aborting, so
lowering of a more-than-two-keyframe series can produce a typed error. -/
theorem to_lottie_subpath_gt2_typed_error :
    2 < threeKfIncompat.len ∧
      to_lottie_subpath threeKfIncompat 60 =
        .err (.incompatiblePaths threeKfIncompat) := by
  constructor
  · norm_num [threeKfIncompat, Keyframed.len]
  · apply to_lottie_subpath_incompat
    · norm_num [threeKfIncompat, Keyframed.len]
    · intro hall
      have := hall ⟨30, [.moveTo (0, 0), .lineTo (1, 1)]⟩ (by simp [threeKfIncompat])
      simp [threeKfIncompat, Keyframed.earliest, path_commands] at this

/-- A three-keyframe series whose keyframes all share one
path-operation-kind sequence. -/
def threeKfCompat : Keyframed BezPath :=
  ⟨[⟨0, [.moveTo (0, 0)]⟩, ⟨30, [.moveTo (0, 0)]⟩, ⟨60, [.moveTo (0, 0)]⟩], none⟩

/-- Witness for `to_lottie_subpath_gt2_no_value` at a concrete compatible
three-keyframe series. -/
theorem to_lottie_subpath_gt2_no_value_witness :
    2 < threeKfCompat.len ∧
      (((∀ p ∈ threeKfCompat.keyframes,
          path_commands threeKfCompat.earliest.value = path_commands p.value) →
        to_lottie_subpath threeKfCompat 60 = .aborts) ∧
      ∀ sps, to_lottie_subpath threeKfCompat 60 ≠ .ok sps) :=
  ⟨by norm_num [threeKfCompat, Keyframed.len],
    to_lottie_subpath_gt2_no_value threeKfCompat 60
      (by norm_num [threeKfCompat, Keyframed.len])⟩

/-- C7: (a) with an end path present and a nonzero last frame the extractor
yields exactly the two keyframes at frame 0 and `last_frame` — but also
attaches the `expressive_non_spatial` spring; (b) lowering a spring-less
interpolation-compatible two-keyframe shape whose paths open with `MoveTo`
(as drawn glyph outlines do; on paths opening with an on-curve command the
source instead panics in `add_cubic`'s vertex indexing) emits a single
animated subpath whose vertices hold exactly two `ShapeKeyframe`s with the
two frames as start times; (c) lowering the extractor's actual output
aborts, because the attached spring sends lowering through the
unimplemented `Keyframe<BezPath>` scaling. -/
theorem for_glyph_two_keyframe_lowering :
    (∀ (lf : ℝ) (sp ep : BezPath), lf ≠ 0 →
      (Keyframed.for_glyph lf sp (some ep)).keyframes = [⟨0, sp⟩, ⟨lf, ep⟩] ∧
      (Keyframed.for_glyph lf sp (some ep)).spring = some Spring.expressive_non_spatial) ∧
    (∀ (p q : BezPath) (f0 f1 fr : ℝ),
      (∀ e ∈ p.head?, ∃ pt, e = PathEl.moveTo pt) →
      (∀ e ∈ q.head?, ∃ pt, e = PathEl.moveTo pt) →
      path_commands p = path_commands q →
      ∃ ks, to_lottie_subpath ⟨[⟨f0, p⟩, ⟨f1, q⟩], none⟩ fr = .ok [⟨1, .animated ks⟩] ∧
        ks.map ShapeKeyframe.start_time = [f0, f1]) ∧
    (∀ (lf fr : ℝ) (sp ep : BezPath), lf ≠ 0 → path_commands sp = path_commands ep →
      to_lottie_subpath (Keyframed.for_glyph lf sp (some ep)) fr = .aborts) := by
  refine ⟨?_, ?_, ?_⟩
  · intro lf sp ep hlf
    rw [for_glyph_some lf sp ep hlf]
    exact ⟨rfl, rfl⟩
  · intro p q f0 f1 fr hp hq hc
    obtain ⟨svs0, svs1, heq⟩ := to_lottie_subpath_two_no_spring p q f0 f1 fr hp hq hc
    exact ⟨_, heq, by simp⟩
  · intro lf fr sp ep hlf hc
    rw [for_glyph_some lf sp ep hlf]
    exact to_lottie_subpath_two_spring sp ep 0 lf fr Spring.expressive_non_spatial hc

/-- C7 counterexample: on a concrete glyph shape with distinct but
interpolation-compatible start and end outlines, lowering the extracted
two-keyframe series panics instead of emitting the animated subpath, since
the extractor attaches the `expressive_non_spatial` spring and spring
motion of a `BezPath` series is unimplemented. -/
theorem for_glyph_lowering_aborts :
    to_lottie_subpath
        (Keyframed.for_glyph 60 [.moveTo (0, 0), .lineTo (1, 0)]
          (some [.moveTo (0, 0), .lineTo (0, 1)])) 60 = .aborts := by
  rw [for_glyph_some 60 _ _ (by norm_num)]
  exact to_lottie_subpath_two_spring _ _ _ _ _ _ rfl

/-! ## ir.rs : Animation, Group, Element, and plan application -/

mutual

/-- `Element` (ir.rs): a group or a keyframed shape. -/
inductive Element where
  | group (g : Group)
  | shape (s : Keyframed BezPath)

/-- `Group` (ir.rs): children, the anchor center, an optional fill and the
three transform keyframe series. -/
inductive Group where
  | mk (children : List Element) (center : Pt) (fill : Option (ℕ × ℕ × ℕ))
      (translate : Keyframed Pt) (scale : Keyframed (ℝ × ℝ)) (rotate : Keyframed ℝ)

end

def Group.children : Group → List Element
  | .mk c _ _ _ _ _ => c

def Group.center : Group → Pt
  | .mk _ ce _ _ _ _ => ce

def Group.fill : Group → Option (ℕ × ℕ × ℕ)
  | .mk _ _ f _ _ _ => f

def Group.translate : Group → Keyframed Pt
  | .mk _ _ _ t _ _ => t

def Group.scale : Group → Keyframed (ℝ × ℝ)
  | .mk _ _ _ _ s _ => s

def Group.rotate : Group → Keyframed ℝ
  | .mk _ _ _ _ _ r => r

/-- The mutation `self.rotate = ...` of `Group::animate`. -/
def Group.setRotate : Group → Keyframed ℝ → Group
  | .mk c ce f t s _, r => .mk c ce f t s r

/-- The mutation `self.scale = ...` of `Group::animate`. -/
def Group.setScale : Group → Keyframed (ℝ × ℝ) → Group
  | .mk c ce f t _ r, s => .mk c ce f t s r

/-- `Group::default` (ir.rs, lines 100-112): no children, center (0,0), no
fill, and single-keyframe transform series at frame 0 holding translation
(0,0), scale (100,100) and rotation 0, all spring-less. -/
noncomputable def Group.default : Group :=
  .mk [] (0, 0) none (Keyframed.new 0 (0, 0) none)
    (Keyframed.new 0 (100, 100) none) (Keyframed.new 0 0 none)

/-- `Animation` (ir.rs, lines 28-36).  The unused `src_to_dest_units`
affine (an external kurbo value) is not modelled. -/
structure Animation where
  width : ℝ
  height : ℝ
  frames : ℝ
  frame_rate : ℝ
  root : Group

/-- Modelled from the spec: designspace axis assignments (a location maps
axis names to values).  `plan.rs` is declared in lib.rs but is absent from
the sources. -/
abbrev Location := List (String × ℝ)

/-- Modelled from the spec: the three fields shared by every
`AnimationPlan` variant — icon name, optional spring preset, optional
`(from_location, to_location)` pair. -/
structure PlanFields where
  icon : String
  spring : Option Spring
  locations : Option (Location × Location)

/-- Modelled from the spec: `AnimationPlan` is a tagged variant
`None | TwirlWhole | TwirlParts | PulseWhole | PulseParts |
RotateDegrees(f64) | ScaleFromTo(f64,f64)` with the shared fields. -/
inductive AnimationPlan where
  | none (f : PlanFields)
  | twirlWhole (f : PlanFields)
  | twirlParts (f : PlanFields)
  | pulseWhole (f : PlanFields)
  | pulseParts (f : PlanFields)
  | rotateDegrees (degrees : ℝ) (f : PlanFields)
  | scaleFromTo (a b : ℝ) (f : PlanFields)

/-- Modelled from the spec: the shared optional spring preset of a plan. -/
def AnimationPlan.fields : AnimationPlan → PlanFields
  | .none f => f
  | .twirlWhole f => f
  | .twirlParts f => f
  | .pulseWhole f => f
  | .pulseParts f => f
  | .rotateDegrees _ f => f
  | .scaleFromTo _ _ f => f

/-- Modelled from the spec: the `spring()` accessor used by
`Group::animate`. -/
def AnimationPlan.spring (p : AnimationPlan) : Option Spring := p.fields.spring

/-- `twirl` (ir.rs, lines 150-161): rotation keyframes for the nth group.
The `assert!(end > start)` and the `try_into().unwrap()` panic on failure:
both abort. -/
noncomputable def twirl (spring : Option Spring) (start fin : ℝ) (nth_group : ℕ) :
    PRes Empty (Keyframed ℝ) :=
  if fin > start then
    match Keyframed.tryFrom [(0.2 * (fin - start) * (nth_group : ℝ), 0),
        (0.2 * (fin - start) * ((nth_group : ℝ) + 2), 360)] with
    | .ok kf => .ok ⟨kf.keyframes, spring⟩
    | .error _ => .aborts
  else .aborts

/-- `pulse` (ir.rs, lines 164-176): scale keyframes for the nth group. -/
noncomputable def pulse (spring : Option Spring) (start fin : ℝ) (nth_group : ℕ) :
    PRes Empty (Keyframed (ℝ × ℝ)) :=
  if fin > start then
    match Keyframed.tryFrom [(0.2 * (fin - start) * (nth_group : ℝ), ((100 : ℝ), (100 : ℝ))),
        (0.2 * (fin - start) * ((nth_group : ℝ) + 1), (150, 150)),
        (0.2 * (fin - start) * ((nth_group : ℝ) + 2), (100, 100))] with
    | .ok kf => .ok ⟨kf.keyframes, spring⟩
    | .error _ => .aborts
  else .aborts

/-- `Group::animate` (ir.rs, lines 115-139).  The source mutates `self`;
the model returns the updated group.  The `TwirlParts`/`PulseParts` arms
(which first regroup the children) and the catch-all `todo!()` arm are
outside every claim and are not modelled: the model returns `none` there. -/
noncomputable def Group.animate (g : Group) (container : Animation)
    (plan : AnimationPlan) : Option (PRes Empty Group) :=
  match plan with
  | .none _ => some (.ok g)
  | .twirlWhole _ =>
      some (match twirl plan.spring 0 container.frames 0 with
        | .ok kf => .ok (g.setRotate kf)
        | .err e => e.elim
        | .aborts => .aborts)
  | .pulseWhole _ =>
      some (match pulse plan.spring 0 container.frames 0 with
        | .ok kf => .ok (g.setScale kf)
        | .err e => e.elim
        | .aborts => .aborts)
  | _ => Option.none

theorem tryFrom_two_sorted {T : Type} (f0 f1 : ℝ) (v0 v1 : T) (h : f0 < f1) :
    Keyframed.tryFrom [(f0, v0), (f1, v1)] = .ok ⟨[⟨f0, v0⟩, ⟨f1, v1⟩], Option.none⟩ := by
  have hsort : List.insertionSort (fun a b : ℝ × T => a.1 ≤ b.1) [(f0, v0), (f1, v1)] =
      [(f0, v0), (f1, v1)] := by
    simp [List.insertionSort, List.orderedInsert, le_of_lt h]
  have hdup : firstAdjacentDupFrame [(f0, v0), (f1, v1)] = Option.none := by
    rw [firstAdjacentDupFrame]
    simp [ne_of_lt h, firstAdjacentDupFrame]
  rw [Keyframed.tryFrom, if_neg (by simp), hsort, hdup]
  simp

theorem twirl_zeroth (spring : Option Spring) (fin : ℝ) (h : 0 < fin) :
    twirl spring 0 fin 0 = .ok ⟨[⟨0, 0⟩, ⟨0.4 * fin, 360⟩], spring⟩ := by
  rw [twirl, if_pos h]
  have e1 : 0.2 * (fin - 0) * ((0 : ℕ) : ℝ) = 0 := by push_cast; ring
  have e2 : 0.2 * (fin - 0) * (((0 : ℕ) : ℝ) + 2) = 0.4 * fin := by push_cast; ring
  rw [e1, e2, tryFrom_two_sorted 0 (0.4 * fin) (0 : ℝ) 360 (by nlinarith)]

theorem setRotate_rotate (g : Group) (r : Keyframed ℝ) : (g.setRotate r).rotate = r := by
  cases g
  rfl

theorem setRotate_scale (g : Group) (r : Keyframed ℝ) : (g.setRotate r).scale = g.scale := by
  cases g
  rfl

theorem setRotate_translate (g : Group) (r : Keyframed ℝ) :
    (g.setRotate r).translate = g.translate := by
  cases g
  rfl

theorem setRotate_children (g : Group) (r : Keyframed ℝ) :
    (g.setRotate r).children = g.children := by
  cases g
  rfl

theorem setRotate_center (g : Group) (r : Keyframed ℝ) :
    (g.setRotate r).center = g.center := by
  cases g
  rfl

theorem setRotate_fill (g : Group) (r : Keyframed ℝ) : (g.setRotate r).fill = g.fill := by
  cases g
  rfl

/-- C8: applying the `TwirlWhole` plan to a group in an animation with
`frames` total frames (positive) replaces the group's rotate series with
exactly the two keyframes `(0, 0°)` and `(0.4·frames, 360°)` (carrying the
plan's spring), leaves its scale and translate series untouched, and
`Group::default`'s scale and translate are the single-keyframe series at
`(100,100)` and `(0,0)`. -/
theorem group_animate_twirl_whole (g : Group) (a : Animation) (f : PlanFields)
    (hf : 0 < a.frames) :
    (∃ g', g.animate a (.twirlWhole f) = some (.ok g') ∧
      g'.rotate = ⟨[⟨0, 0⟩, ⟨0.4 * a.frames, 360⟩], f.spring⟩ ∧
      g'.scale = g.scale ∧ g'.translate = g.translate ∧
      g'.children = g.children ∧ g'.center = g.center ∧ g'.fill = g.fill) ∧
    Group.default.scale = Keyframed.new 0 (100, 100) Option.none ∧
    Group.default.translate = Keyframed.new 0 (0, 0) Option.none ∧
    Group.default.scale.len = 1 ∧ Group.default.translate.len = 1 := by
  refine ⟨⟨g.setRotate ⟨[⟨0, 0⟩, ⟨0.4 * a.frames, 360⟩], f.spring⟩, ?_,
    setRotate_rotate g _, setRotate_scale g _, setRotate_translate g _,
    setRotate_children g _, setRotate_center g _, setRotate_fill g _⟩, rfl, rfl, rfl, rfl⟩
  rw [Group.animate]
  have hs : (AnimationPlan.twirlWhole f).spring = f.spring := rfl
  rw [hs, twirl_zeroth f.spring a.frames hf]

/-- A concrete 60-frame animation whose root is the default group. -/
noncomputable def demoAnimation : Animation := ⟨100, 100, 60, 60, Group.default⟩

/-- Concrete shared plan fields with no spring and no locations. -/
def demoPlanFields : PlanFields := ⟨"circle", Option.none, Option.none⟩

/-- Witness for `group_animate_twirl_whole`: the default group twirled over
60 frames gets rotate keyframes at 0 and 24. -/
theorem group_animate_twirl_whole_witness :
    0 < demoAnimation.frames ∧
      ((∃ g', Group.default.animate demoAnimation (.twirlWhole demoPlanFields) =
          some (.ok g') ∧
        g'.rotate = ⟨[⟨0, 0⟩, ⟨0.4 * demoAnimation.frames, 360⟩], demoPlanFields.spring⟩ ∧
        g'.scale = Group.default.scale ∧ g'.translate = Group.default.translate ∧
        g'.children = Group.default.children ∧ g'.center = Group.default.center ∧
        g'.fill = Group.default.fill) ∧
      Group.default.scale = Keyframed.new 0 (100, 100) Option.none ∧
      Group.default.translate = Keyframed.new 0 (0, 0) Option.none ∧
      Group.default.scale.len = 1 ∧ Group.default.translate.len = 1) :=
  ⟨by norm_num [demoAnimation],
    group_animate_twirl_whole Group.default demoAnimation demoPlanFields
      (by norm_num [demoAnimation])⟩

end Iconimation
